import Mathlib

/-!
# Verification of the Nelder-Mead optimization engine

A shallow embedding of `aiida_optimize/engines/_nelder_mead.py`.

Modelling conventions:
* Machine floats are modelled as exact rationals (`ℚ`).
* A point (one row of the simplex) is a `List ℚ`; the 2D numpy array
  `simplex` is a list of rows.
* `np.argsort`'s documented contract — an index array that is a permutation
  of all positions and sorts the values ascending, with the order of equal
  values unspecified because the default quicksort kind is not stable — is
  modelled nondeterministically by `is_argsort` and `do_sort_nd`.  The
  executable step functions fix one permitted outcome, a stable merge sort of
  the (cost, row) pairs (`do_sort_pair`); statements that are sensitive to
  the order of tied values are settled against the nondeterministic model,
  while the rest of the development uses only properties common to every
  permitted outcome (the result is a sorted permutation of the input).
* The comparison `la.norm(v) < xtol` (a real square root against a bound) is
  modelled on ℚ by the equivalent `0 < xtol ∧ sqNorm v < xtol * xtol`; the
  equivalence over ℝ is proved in `normLtB_iff_sqrt_lt`.
* Python exceptions (missing keys, bad numpy shapes, `getattr` on `None`) are
  modelled by `Option`: a phase call that would raise returns `none`.
* The `{'x': List}` wrapper built by `_to_input_list` is the `Input` structure.
* The evaluation results delivered to an update phase form the dict
  `outputs : id ↦ result`; the engine reads the scalar cost
  `res[self.result_key].value` from each result and, for single-point updates,
  reads the submitted point back from `self._result_mapping[idx].input['x']`.
  Both lookups are modelled by giving each delivered entry the shape
  `(id, (x, cost))` with the result-key lookup already applied.
* `submit_shrink` marks the costs of the shrunk vertices with `np.nan` before
  they are re-evaluated; `update_shrink` overwrites these placeholders before
  anything reads them.  `ℚ` has no NaN, so the model keeps the stale values in
  these never-read positions.
-/

/-! ## Vector arithmetic (numpy array operations on rows) -/

abbrev Vec := List ℚ

def vecAdd (a b : Vec) : Vec := List.zipWith (· + ·) a b

def vecSub (a b : Vec) : Vec := List.zipWith (· - ·) a b

def vecSMul (c : ℚ) (v : Vec) : Vec := v.map (fun x => c * x)

/-- `la.norm(v)` squared: the sum of the squared entries. -/
def sqNorm (v : Vec) : ℚ := (v.map (fun x => x * x)).sum

/-- `sqNorm v < t * t ∧ 0 < t`, the ℚ-encoding of `la.norm(v) < t`. -/
def normLtB (d t : ℚ) : Bool := decide (0 < t) && decide (d < t * t)

/-! ## Module constants (`RHO`, `CHI`, `PSI`, `SIGMA`) -/

def RHO : ℚ := 1

def CHI : ℚ := 2

def PSI : ℚ := 1 / 2

def SIGMA : ℚ := 1 / 2

/-! ## Phases of the state machine

One constructor per method of `NelderMead` that can be named by
`next_submit` / `next_update`. -/

inductive Phase where
  | submit_init
  | update_init
  | new_iter
  | choose_step
  | submit_expansion
  | update_expansion
  | submit_contraction
  | update_contraction
  | submit_inside_contraction
  | update_inside_contraction
  | submit_shrink
  | update_shrink
  | finalize
deriving DecidableEq, Repr

/-! ## Engine state (the serializable fields of `NelderMead`) -/

structure NelderMead where
  simplex : List Vec
  fun_simplex : Option (List ℚ)
  xtol : ℚ
  ftol : ℚ
  num_iter : ℕ
  max_iter : ℕ
  /-- the `extra_points` dict: `none` is `{}`, `some (x, f)` is `{'xr': (x, f)}`. -/
  extra_points : Option (Vec × ℚ)
  result_key : String
  next_submit : Option Phase
  next_update : Option Phase
  finished : Bool
deriving DecidableEq, Repr

/-- The `{'x': <list>}` bundle produced by `_to_input_list`. -/
structure Input where
  x : Vec
deriving DecidableEq, Repr

def to_input_list (x : Vec) : Input := ⟨x⟩

/-- One evaluation result as the engine sees it: the submitted point
(read back through `_result_mapping[idx].input['x']`) and the scalar cost
(`res[self.result_key].value`). -/
abbrev Output := Vec × ℚ

/-- The `outputs` dict handed to an update phase: `id ↦ result`. -/
abbrev Outputs := List (ℕ × Output)

/-- An entry of the collaborator-owned `_result_mapping`. -/
abbrev ResultMapping := List (ℕ × Output)

/-! ## Helper methods -/

/-- `_get_values`: the costs of `outputs`, sorted ascending by identifier
(`sorted(outputs.items())` sorts a dict's items by key). -/
def get_values (outs : Outputs) : List ℚ :=
  (outs.mergeSort (fun a b => decide (a.1 ≤ b.1))).map (fun p => p.2.2)

/-- `_get_single_result`: the unique delivered result; a batch of any other
size raises (`(idx,) = outputs.keys()`). -/
def get_single_result (outs : Outputs) : Option Output :=
  match outs with
  | [p] => some p.2
  | _ => none

/-- `simplex[-1]`. -/
def lastRow (sx : List Vec) : Vec := sx.getLastD []

/-- Sum of a nonempty list of vectors (componentwise). -/
def vecSum : List Vec → Vec
  | [] => []
  | [v] => v
  | v :: rest => vecAdd v (vecSum rest)

/-- `xbar`: `np.average(self.simplex[:-1], axis=0)`. -/
def xbar (sx : List Vec) : Vec :=
  vecSMul (1 / ((sx.length - 1 : ℕ) : ℚ)) (vecSum sx.dropLast)

/-- `do_sort` on the raw pair, fixing one permitted `np.argsort` outcome
(the stable one): sort the costs ascending and apply the same permutation to
the simplex rows.  Statements about the order of tied values are settled
against the nondeterministic model `is_argsort` / `do_sort_nd` below, since
`np.argsort`'s default kind does not guarantee stability. -/
def do_sort_pair (sx : List Vec) (fs : List ℚ) : List Vec × List ℚ :=
  let sorted := (fs.zip sx).mergeSort (fun a b => decide (a.1 ≤ b.1))
  (sorted.map Prod.snd, sorted.map Prod.fst)

/-- `do_sort` (raises if `fun_simplex` is `None`). -/
def do_sort (s : NelderMead) : Option NelderMead :=
  s.fun_simplex.map (fun fs =>
    let p := do_sort_pair s.simplex fs
    { s with simplex := p.1, fun_simplex := some p.2 })

/-- The contract `np.argsort` documents for its default (quicksort) kind:
the returned index array is a permutation of all positions that puts the
values in ascending order.  Nothing more is guaranteed: the default kind is
not stable, so the relative order of equal values is unspecified, and any
`idx` satisfying this predicate is a possible outcome. -/
def is_argsort (fs : List ℚ) (idx : List ℕ) : Prop :=
  idx.Perm (List.range fs.length) ∧
    List.Sorted (· ≤ ·) (idx.map (fun i => fs.getD i 0))

/-- `np.take(arr, idx, axis=0)`. -/
def np_take {α : Type} (idx : List ℕ) (l : List α) (d : α) : List α :=
  idx.map (fun i => l.getD i d)

/-- `do_sort` with the `np.argsort` outcome `idx` left as a parameter: the
program may reorder the arrays by any `idx` satisfying `is_argsort`. -/
def do_sort_nd (idx : List ℕ) (s : NelderMead) : Option NelderMead :=
  s.fun_simplex.map (fun fs =>
    { s with simplex := np_take idx s.simplex ([] : Vec),
             fun_simplex := some (np_take idx fs 0) })

/-- The body of `check_finished`:
`np.max(la.norm(simplex[1:] - simplex[0], axis=-1)) < xtol
 and np.max(np.abs(fun_simplex[1:] - fun_simplex[0])) < ftol`.
`np.max(xs) < t` over the nonempty list `xs` is `xs.all (· < t)`. -/
def check_fin (sx : List Vec) (fs : List ℚ) (xtol ftol : ℚ) : Bool :=
  (sx.tail.all (fun v => normLtB (sqNorm (vecSub v sx.headI)) xtol))
    && (fs.tail.all (fun f => decide (|f - fs.headI| < ftol)))

/-- `check_finished` (raises if `fun_simplex` is `None`). -/
def check_finished (s : NelderMead) : Option NelderMead :=
  s.fun_simplex.map (fun fs =>
    { s with finished := check_fin s.simplex fs s.xtol s.ftol })

/-- `_update_last`: overwrite the worst (last) vertex and its cost. -/
def update_last (sx : List Vec) (fs : List ℚ) (x : Vec) (f : ℚ) :
    List Vec × List ℚ :=
  (sx.set (sx.length - 1) x, fs.set (fs.length - 1) f)

/-- `is_finished`. -/
def is_finished (s : NelderMead) : Bool := s.finished

/-! ## The decorators `submit_method` / `update_method`

Each wrapper rewrites the two phase pointers before running the body. -/

def submit_decor (nu : Option Phase) (s : NelderMead) : NelderMead :=
  { s with next_submit := none, next_update := nu }

def update_decor (ns : Option Phase) (s : NelderMead) : NelderMead :=
  { s with next_submit := ns, next_update := none }

/-! ## Submit phases -/

/-- Dispatch of a submit phase: the new engine state and the list of emitted
input bundles.  `none` models a raised exception (including naming an update
method, which is not callable with zero arguments). -/
def submit_step : Phase → NelderMead → Option (NelderMead × List Input)
  | .submit_init, s₀ =>
    let s := submit_decor (some .update_init) s₀
    some (s, s.simplex.map to_input_list)
  | .new_iter, s₀ => do
    let s₁ := submit_decor none s₀
    let s₂ ← do_sort s₁
    let s₃ ← check_finished s₂
    if s₃.finished then
      some ({ s₃ with next_update := some .finalize }, [])
    else
      let s₄ := { s₃ with num_iter := s₃.num_iter + 1 }
      let xr := vecSub (vecSMul (1 + RHO) (xbar s₄.simplex))
        (vecSMul RHO (lastRow s₄.simplex))
      some ({ s₄ with next_update := some .choose_step }, [to_input_list xr])
  | .submit_expansion, s₀ =>
    let s := submit_decor (some .update_expansion) s₀
    let xe := vecSub (vecSMul (1 + RHO * CHI) (xbar s.simplex))
      (vecSMul (RHO * CHI) (lastRow s.simplex))
    some (s, [to_input_list xe])
  | .submit_contraction, s₀ =>
    let s := submit_decor (some .update_contraction) s₀
    let xc := vecSub (vecSMul (1 + PSI * RHO) (xbar s.simplex))
      (vecSMul (PSI * RHO) (lastRow s.simplex))
    some (s, [to_input_list xc])
  | .submit_inside_contraction, s₀ =>
    let s := submit_decor (some .update_inside_contraction) s₀
    let xcc := vecAdd (vecSMul (1 - PSI) (xbar s.simplex))
      (vecSMul PSI (lastRow s.simplex))
    some (s, [to_input_list xcc])
  | .submit_shrink, s₀ =>
    let s := submit_decor (some .update_shrink) s₀
    let best := s.simplex.headI
    let newTail := s.simplex.tail.map
      (fun v => vecAdd best (vecSMul SIGMA (vecSub v best)))
    some ({ s with simplex := best :: newTail }, newTail.map to_input_list)
  | _, _ => none

/-! ## Update phases -/

/-- Dispatch of an update phase on a delivered batch.  `none` models a raised
exception (wrong batch size, missing `fun_simplex` / `extra_points`, numpy
index or broadcast errors, or naming a submit method). -/
def update_step : Phase → Outputs → NelderMead → Option NelderMead
  | .update_init, outs, s₀ =>
    let s := update_decor (some .new_iter) s₀
    some { s with fun_simplex := some (get_values outs) }
  | .choose_step, outs, s₀ => do
    let s₁ := update_decor none s₀
    let r ← get_single_result outs
    let fs ← s₁.fun_simplex
    let s := { s₁ with extra_points := some r }
    if r.2 < fs.headI then
      if fs.length = 0 then none else
      some { s with next_submit := some .submit_expansion }
    else
    if fs.length < 2 then none else
    if r.2 < fs.getD (fs.length - 2) 0 then
      let p := update_last s.simplex fs r.1 r.2
      some { s with simplex := p.1, fun_simplex := some p.2,
                    next_submit := some .new_iter }
    else if r.2 < fs.getLastD 0 then
      some { s with next_submit := some .submit_contraction }
    else
      some { s with next_submit := some .submit_inside_contraction }
  | .update_expansion, outs, s₀ => do
    let s := update_decor (some .new_iter) s₀
    let re ← get_single_result outs
    let rr ← s.extra_points
    let fs ← s.fun_simplex
    let p := if re.2 < rr.2 then update_last s.simplex fs re.1 re.2
             else update_last s.simplex fs rr.1 rr.2
    some { s with simplex := p.1, fun_simplex := some p.2 }
  | .update_contraction, outs, s₀ => do
    let s := update_decor none s₀
    let rc ← get_single_result outs
    let rr ← s.extra_points
    let fs ← s.fun_simplex
    if rc.2 < rr.2 then
      let p := update_last s.simplex fs rc.1 rc.2
      some { s with simplex := p.1, fun_simplex := some p.2,
                    next_submit := some .new_iter }
    else
      some { s with next_submit := some .submit_shrink }
  | .update_inside_contraction, outs, s₀ => do
    let s := update_decor none s₀
    let rcc ← get_single_result outs
    let fs ← s.fun_simplex
    if fs.length = 0 then none else
    if rcc.2 < fs.getLastD 0 then
      let p := update_last s.simplex fs rcc.1 rcc.2
      some { s with simplex := p.1, fun_simplex := some p.2,
                    next_submit := some .new_iter }
    else
      some { s with next_submit := some .submit_shrink }
  | .update_shrink, outs, s₀ => do
    let s := update_decor (some .new_iter) s₀
    let fs ← s.fun_simplex
    if outs.length + 1 = fs.length then
      some { s with fun_simplex := some (fs.take 1 ++ get_values outs) }
    else none
  | .finalize, _, s₀ =>
    some (update_decor none s₀)
  | _, _, _ => none

/-! ## The engine-contract dispatchers -/

/-- `_create_inputs`: `getattr(self, self.next_submit)()`. -/
def create_inputs (s : NelderMead) : Option (NelderMead × List Input) :=
  s.next_submit.bind (fun p => submit_step p s)

/-- `_update`: `getattr(self, self.next_update)(outputs)`. -/
def consume_outputs (outs : Outputs) (s : NelderMead) : Option NelderMead :=
  s.next_update.bind (fun p => update_step p outs s)

/-! ## Constructor and serialized state -/

/-- The `assert len(self.simplex) == self.simplex.shape[1] + 1` check
(`shape[1]` requires a rectangular 2D array). -/
def simplex_ok (sx : List Vec) : Bool :=
  decide (sx.length = sx.headI.length + 1)
    && sx.all (fun r => decide (r.length = sx.headI.length))

/-- `__init__` with every argument supplied. -/
def nm_new (simplex : List Vec) (fun_simplex : Option (List ℚ)) (xtol ftol : ℚ)
    (num_iter max_iter : ℕ) (extra_points : Option (Vec × ℚ))
    (result_key : String) (next_submit next_update : Option Phase)
    (finished : Bool) : Option NelderMead :=
  if simplex_ok simplex then
    some ⟨simplex, fun_simplex, xtol, ftol, num_iter, max_iter, extra_points,
          result_key, next_submit, next_update, finished⟩
  else none

/-- `__init__` for a fresh run: caller-supplied simplex, tolerances and
iteration cap, every other field at its default. -/
def nm_start (simplex : List Vec) (xtol ftol : ℚ) (max_iter : ℕ) :
    Option NelderMead :=
  nm_new simplex none xtol ftol 0 max_iter none "cost_value"
    (some .submit_init) none false

/-- `__init__` with only the simplex supplied (all defaults). -/
def nm_fresh (simplex : List Vec) : Option NelderMead :=
  nm_start simplex (1 / 10000) (1 / 10000) 1000

/-- The flat field mapping produced by the `_state` property: every field of
`self.__dict__` except the externally-owned `_result_mapping`. -/
structure EngineState where
  simplex : List Vec
  fun_simplex : Option (List ℚ)
  xtol : ℚ
  ftol : ℚ
  num_iter : ℕ
  max_iter : ℕ
  extra_points : Option (Vec × ℚ)
  result_key : String
  next_submit : Option Phase
  next_update : Option Phase
  finished : Bool
deriving DecidableEq, Repr

/-- The `_state` property. -/
def nm_state (s : NelderMead) : EngineState :=
  ⟨s.simplex, s.fun_simplex, s.xtol, s.ftol, s.num_iter, s.max_iter,
   s.extra_points, s.result_key, s.next_submit, s.next_update, s.finished⟩

/-- Reconstructing an engine from a serialized state (constructor call with
every field of the state mapping passed back). -/
def nm_from_state (st : EngineState) : Option NelderMead :=
  nm_new st.simplex st.fun_simplex st.xtol st.ftol st.num_iter st.max_iter
    st.extra_points st.result_key st.next_submit st.next_update st.finished

/-- Replay a run: repeatedly call `create_inputs`, record the emitted batch,
and feed the next element of `outs` back through `consume_outputs`; stop at
the first failure or when the replayed results run out. -/
def replay (s : NelderMead) : List Outputs → List (List Input)
  | [] =>
    match create_inputs s with
    | some (_, ins) => [ins]
    | none => []
  | o :: os =>
    match create_inputs s with
    | none => []
    | some (s', ins) =>
      ins :: (match consume_outputs o s' with
              | none => []
              | some s'' => replay s'' os)

/-! ## Result extraction -/

/-- `_get_optimal_result`: `min(cost_values.items(), key=...)` — a linear scan
keeping the first entry whose cost is strictly smaller than the best so far;
raises on an empty mapping. -/
def get_optimal_result (m : ResultMapping) : Option (ℕ × Output) :=
  match m with
  | [] => none
  | x :: xs =>
    some (xs.foldl (fun best item => if item.2.2 < best.2.2 then item else best) x)

/-- `result_value`: the optimal cost, guarded by
`assert value.value == self.fun_simplex[0]`. -/
def result_value (s : NelderMead) (m : ResultMapping) : Option ℚ :=
  (get_optimal_result m).bind (fun r =>
    match s.fun_simplex with
    | some fs =>
      match fs with
      | [] => none
      | f0 :: _ => if r.2.2 = f0 then some r.2.2 else none
    | none => none)

/-- `result_index`: the identifier of the optimal entry. -/
def result_index (m : ResultMapping) : Option ℕ :=
  (get_optimal_result m).map (fun r => r.1)

/-! ## The driving loop

A `World` is the engine plus the collaborator-owned result mapping and the
batch of evaluation results the collaborator has produced but the engine has
not yet consumed.  The orchestrator assigns each submitted point a fresh
identifier (sequentially increasing, as the workchain does), runs the external
evaluations (costs are arbitrary: the objective function is opaque), appends
the results to the mapping, and hands the whole batch to the next update
phase. -/

structure World where
  engine : NelderMead
  mapping : ResultMapping
  pending : Outputs
deriving Repr

/-- The mapping / outputs entries created for one submitted batch: fresh
sequential identifiers starting at `i`, each point paired with the cost the
external evaluator returned for it. -/
def envEntries : ℕ → List Input → List ℚ → Outputs
  | _, [], _ => []
  | _, _ :: _, [] => []
  | i, p :: ps, f :: fs => (i, (p.x, f)) :: envEntries (i + 1) ps fs

/-- Reachability of a world from a fresh run: construction from an initial
simplex, then strictly alternating `create_inputs` / `consume_outputs` calls,
with every batch evaluated by the collaborator (arbitrary costs) and delivered
exactly as submitted. -/
inductive Reach : World → Prop where
  | fresh (simplex : List Vec) (xtol ftol : ℚ) (max_iter : ℕ)
      (e : NelderMead) :
      nm_start simplex xtol ftol max_iter = some e → Reach ⟨e, [], []⟩
  | submit (w : World) (p : Phase) (e' : NelderMead) (xs : List Input)
      (fs : List ℚ) :
      Reach w → w.engine.next_submit = some p →
      submit_step p w.engine = some (e', xs) →
      fs.length = xs.length →
      Reach ⟨e', w.mapping ++ envEntries w.mapping.length xs fs,
             envEntries w.mapping.length xs fs⟩
  | update (w : World) (p : Phase) (e' : NelderMead) :
      Reach w → w.engine.next_update = some p →
      update_step p w.pending w.engine = some e' →
      Reach ⟨e', w.mapping, []⟩

/-! ## Concrete states used in witnesses and counterexamples

A 1-dimensional run with initial simplex `[[0], [0]]`, tolerances `1`, and a
constant-0 objective: the convergence test passes at the first `new_iter`,
so the run goes `submit_init → update_init → new_iter (finished) →
finalize`. -/

def E0 : NelderMead :=
  ⟨[[0], [0]], none, 1, 1, 0, 1000, none,
   "cost_value", some .submit_init, none, false⟩

def E1 : NelderMead :=
  { E0 with next_submit := none, next_update := some .update_init }

def X1 : List Input := [⟨[0]⟩, ⟨[0]⟩]

def P1 : Outputs := [(0, ([0], 0)), (1, ([0], 0))]

def E2 : NelderMead :=
  { E1 with fun_simplex := some [0, 0], next_submit := some .new_iter,
            next_update := none }

def E3 : NelderMead :=
  { E2 with next_submit := none, next_update := some .finalize,
            finished := true }

def E4 : NelderMead := { E3 with next_update := none }

def W0 : World := ⟨E0, [], []⟩

def W1 : World := ⟨E1, P1, P1⟩

def W2 : World := ⟨E2, P1, []⟩

def W3 : World := ⟨E3, P1, []⟩

def W4 : World := ⟨E4, P1, []⟩

/-- The engine state used in the `update_init` order counterexample. -/
def C7state : NelderMead :=
  ⟨[[0], [2]], none, 1 / 10000, 1 / 10000, 0, 1000, none, "cost_value",
   none, some .update_init, false⟩

/-- A batch for `C7state`, listed in submission order: the collaborator gave
the first submitted vertex `[0]` (cost `5`) the identifier `1` and the second
submitted vertex `[2]` (cost `7`) the identifier `0`. -/
def C7outs : Outputs := [(1, ([0], 5)), (0, ([2], 7))]

/-- A sorted state whose two costs are tied, for the C9 counterexample. -/
def C9s : NelderMead :=
  ⟨[[3], [5]], some [0, 0], 1, 1, 0, 1000, none, "cost_value",
   some .new_iter, none, false⟩

/-- A strictly sorted state, for the amended C9 witness. -/
def C9w : NelderMead :=
  ⟨[[3], [5]], some [1, 2], 1, 1, 0, 1000, none, "cost_value",
   some .new_iter, none, false⟩

/-- A concrete non-converged state awaiting `new_iter`. -/
def C4s : NelderMead :=
  ⟨[[0], [2]], some [1, 9], 1 / 10000, 1 / 10000, 3, 1000, none,
   "cost_value", some .new_iter, none, false⟩

/-! ## Cost bookkeeping for the reachability invariant -/

def mapCosts (m : ResultMapping) : List ℚ := m.map (fun e => e.2.2)

def pendCosts (o : Outputs) : List ℚ := o.map (fun e => e.2.2)

def extraCosts : Option (Vec × ℚ) → List ℚ
  | none => []
  | some p => [p.2]

def funCosts (e : NelderMead) : List ℚ := e.fun_simplex.getD []

/-- Every cost the engine still considers "live": the current simplex values,
the costs of the batch awaiting consumption, and the cached extra point. -/
def lows (w : World) : List ℚ :=
  funCosts w.engine ++ pendCosts w.pending ++ extraCosts w.engine.extra_points

/-- The cached extra point's cost is bounded below by some simplex value. -/
def ExtraLB (e : NelderMead) : Prop :=
  ∀ c ∈ extraCosts e.extra_points, ∃ d ∈ funCosts e, d ≤ c

def SortedFun (e : NelderMead) : Prop :=
  ∃ fs, e.fun_simplex = some fs ∧ List.Sorted (· ≤ ·) fs

/-- Phase-independent invariant clauses: every simplex value and cached value
occurs in the result mapping; every mapping cost is bounded below by a live
cost; pending entries are already recorded in the mapping; the value vector
(when present) matches the simplex in length; the simplex is nonempty. -/
def BaseInv (w : World) : Prop :=
  (∀ c ∈ funCosts w.engine, c ∈ mapCosts w.mapping) ∧
  (∀ c ∈ mapCosts w.mapping, ∃ d ∈ lows w, d ≤ c) ∧
  (∀ c ∈ extraCosts w.engine.extra_points, c ∈ mapCosts w.mapping) ∧
  (∀ c ∈ pendCosts w.pending, c ∈ mapCosts w.mapping) ∧
  (∀ fs, w.engine.fun_simplex = some fs →
    fs.length = w.engine.simplex.length) ∧
  1 ≤ w.engine.simplex.length

/-- Phase-dependent invariant clauses, indexed by the pointer pair. -/
def PhasePred (ns nu : Option Phase) (w : World) : Prop :=
  match ns, nu with
  | some .submit_init, none =>
    w.engine.fun_simplex = none ∧ w.engine.extra_points = none ∧
    w.engine.finished = false ∧ w.pending = []
  | none, some .update_init =>
    w.engine.fun_simplex = none ∧ w.engine.extra_points = none ∧
    w.engine.finished = false ∧ w.pending.length = w.engine.simplex.length
  | some .new_iter, none =>
    w.engine.fun_simplex.isSome = true ∧ ExtraLB w.engine ∧
    w.engine.finished = false ∧ w.pending = []
  | none, some .choose_step =>
    SortedFun w.engine ∧ ExtraLB w.engine ∧ w.engine.finished = false
  | some .submit_expansion, none =>
    (∃ fs xr fxr, w.engine.fun_simplex = some fs ∧ List.Sorted (· ≤ ·) fs ∧
      fs ≠ [] ∧ w.engine.extra_points = some (xr, fxr) ∧ fxr < fs.headI) ∧
    w.engine.finished = false ∧ w.pending = []
  | none, some .update_expansion =>
    (∃ fs xr fxr, w.engine.fun_simplex = some fs ∧ List.Sorted (· ≤ ·) fs ∧
      fs ≠ [] ∧ w.engine.extra_points = some (xr, fxr) ∧ fxr < fs.headI) ∧
    w.engine.finished = false
  | some .submit_contraction, none =>
    (∃ fs, w.engine.fun_simplex = some fs ∧ List.Sorted (· ≤ ·) fs ∧
      2 ≤ fs.length) ∧ ExtraLB w.engine ∧
    w.engine.extra_points.isSome = true ∧
    w.engine.finished = false ∧ w.pending = []
  | none, some .update_contraction =>
    (∃ fs, w.engine.fun_simplex = some fs ∧ List.Sorted (· ≤ ·) fs ∧
      2 ≤ fs.length) ∧ ExtraLB w.engine ∧
    w.engine.extra_points.isSome = true ∧ w.engine.finished = false
  | some .submit_inside_contraction, none =>
    (∃ fs, w.engine.fun_simplex = some fs ∧ List.Sorted (· ≤ ·) fs ∧
      2 ≤ fs.length) ∧ ExtraLB w.engine ∧ w.engine.finished = false ∧
    w.pending = []
  | none, some .update_inside_contraction =>
    (∃ fs, w.engine.fun_simplex = some fs ∧ List.Sorted (· ≤ ·) fs ∧
      2 ≤ fs.length) ∧ ExtraLB w.engine ∧ w.engine.finished = false
  | some .submit_shrink, none =>
    SortedFun w.engine ∧ ExtraLB w.engine ∧ w.engine.finished = false ∧
    w.pending = []
  | none, some .update_shrink =>
    SortedFun w.engine ∧ ExtraLB w.engine ∧ w.engine.finished = false
  | none, some .finalize =>
    SortedFun w.engine ∧ ExtraLB w.engine ∧ w.engine.finished = true ∧
    w.pending = []
  | none, none =>
    SortedFun w.engine ∧ ExtraLB w.engine ∧ w.engine.finished = true ∧
    w.pending = []
  | _, _ => False

def PhaseInv (w : World) : Prop :=
  PhasePred w.engine.next_submit w.engine.next_update w

def WInv (w : World) : Prop := BaseInv w ∧ PhaseInv w

/-! # Theorems -/

/-! ## Generic list lemmas -/

theorem headI_mem {α : Type} [Inhabited α] {l : List α} (h : l ≠ []) :
    l.headI ∈ l := by
  cases l with
  | nil => exact absurd rfl h
  | cons a t => exact List.mem_cons_self a t

theorem sorted_headI_le {l : List ℚ} (hs : List.Sorted (· ≤ ·) l) {a : ℚ}
    (ha : a ∈ l) : l.headI ≤ a := by
  cases l with
  | nil => cases ha
  | cons b t =>
    rcases List.mem_cons.mp ha with h | h
    · exact le_of_eq h.symm
    · exact (List.sorted_cons.mp hs).1 a h

theorem mem_set_self {α : Type} {l : List α} {i : ℕ} (h : i < l.length)
    (a : α) : a ∈ l.set i a := by
  induction l generalizing i with
  | nil => simp at h
  | cons b t ih =>
    cases i with
    | zero => simp
    | succ j =>
      simp only [List.set_cons_succ, List.mem_cons]
      exact Or.inr (ih (by simpa using h) )

theorem headI_set_of_pos {α : Type} [Inhabited α] {l : List α} {i : ℕ}
    (h : 0 < i) (a : α) : (l.set i a).headI = l.headI := by
  cases l with
  | nil => simp
  | cons b t =>
    cases i with
    | zero => simp at h
    | succ j => simp

theorem headI_mem_set {α : Type} [Inhabited α] {l : List α} {i : ℕ}
    (hi : 0 < i) (hl : l ≠ []) (a : α) : l.headI ∈ l.set i a := by
  cases l with
  | nil => exact absurd rfl hl
  | cons b t =>
    cases i with
    | zero => simp at hi
    | succ j => simp

theorem pairwise_zip_of_pairwise_fst {α : Type} {R : ℚ → ℚ → Prop}
    {fs : List ℚ} (h : fs.Pairwise R) (sx : List α) :
    (fs.zip sx).Pairwise (fun a b => R a.1 b.1) := by
  induction fs generalizing sx with
  | nil => simp
  | cons f t ih =>
    cases sx with
    | nil => simp
    | cons x u =>
      rw [List.zip_cons_cons, List.pairwise_cons]
      refine ⟨fun b hb => ?_, ih (List.pairwise_cons.mp h).2 u⟩
      exact (List.pairwise_cons.mp h).1 b.1 (List.of_mem_zip hb).1

/-! ## Claim C5 -/

/-- Claim C5: the convergence check never consults the iteration counters:
two engine states identical except for `num_iter` and `max_iter` produce the
same finished flag, so exceeding `max_iter` alone never makes `is_finished`
true. -/
theorem check_finished_ignores_iteration_counters (s : NelderMead)
    (k m k' m' : ℕ) :
    (check_finished { s with num_iter := k, max_iter := m }).map is_finished
      = (check_finished { s with num_iter := k', max_iter := m' }).map
          is_finished := by
  cases h : s.fun_simplex <;>
    simp [check_finished, is_finished, h]

/-! ## Claim C9 -/

/-- Taking every position of a list in order gives back the list. -/
theorem map_getD_range {α : Type} (l : List α) (d : α) :
    (List.range l.length).map (fun i => l.getD i d) = l := by
  apply List.ext_getElem
  · simp
  · intro i h1 h2
    simp only [List.getElem_map, List.getElem_range]
    rw [List.getD_eq_getElem?_getD, List.getElem?_eq_getElem h2]
    rfl

/-- `np_take` at the identity index array is the identity. -/
theorem np_take_range {α : Type} (l : List α) (d : α) :
    np_take (List.range l.length) l d = l :=
  map_getD_range l d

/-- In a strictly sorted list, `getD` is strictly monotone on positions
below the length. -/
theorem strict_sorted_getD_lt {fs : List ℚ} (h : List.Pairwise (· < ·) fs)
    {i j : ℕ} (hij : i < j) (hj : j < fs.length) :
    fs.getD i 0 < fs.getD j 0 := by
  have hi : i < fs.length := lt_trans hij hj
  have hlt := List.pairwise_iff_getElem.mp h i j hi hj hij
  rw [List.getD_eq_getElem?_getD, List.getElem?_eq_getElem hi,
    List.getD_eq_getElem?_getD, List.getElem?_eq_getElem hj]
  exact hlt

/-- Counterexample to claim C9 as stated: on the already-sorted state `C9s`
with tied costs `[0, 0]`, the index array `[1, 0]` satisfies the full
documented `np.argsort` contract (a permutation of the positions putting the
values in ascending order — the default quicksort kind is not stable, so tie
order is unspecified), yet applying it swaps the simplex rows: the rows are
NOT guaranteed unchanged when the sorted values contain ties. -/
theorem do_sort_tie_counterexample :
    is_argsort [0, 0] [1, 0] ∧
      do_sort_nd [1, 0] C9s = some { C9s with simplex := [[5], [3]] } ∧
      ([[5], [3]] : List Vec) ≠ C9s.simplex :=
  ⟨⟨by decide, by decide⟩, by decide, by decide⟩

/-- Claim C9, amended: on a state whose function-value vector is already
sorted ascending, every permitted `np.argsort` outcome `idx` leaves the
function-value vector unchanged, and if moreover the values are strictly
increasing (no ties) the whole state — simplex rows included — is unchanged.
With ties the value vector is still unchanged but the row order is not
guaranteed, since `np.argsort`'s default kind is not stable
(`do_sort_tie_counterexample`). -/
theorem do_sort_sorted_spec (s : NelderMead) (fs : List ℚ) (idx : List ℕ)
    (hfs : s.fun_simplex = some fs) (hlen : fs.length = s.simplex.length)
    (hsorted : List.Sorted (· ≤ ·) fs) (hidx : is_argsort fs idx) :
    ∃ s', do_sort_nd idx s = some s' ∧ s'.fun_simplex = some fs ∧
      (List.Pairwise (· < ·) fs → s' = s) := by
  have hvals : np_take idx fs 0 = fs := by
    have h1 : (idx.map (fun i => fs.getD i 0)).Perm
        ((List.range fs.length).map (fun i => fs.getD i 0)) :=
      hidx.1.map _
    rw [map_getD_range] at h1
    exact List.eq_of_perm_of_sorted h1 hidx.2 hsorted
  have hds : do_sort_nd idx s = some { s with simplex := np_take idx s.simplex ([] : Vec), fun_simplex := some (np_take idx fs 0) } := by
    simp [do_sort_nd, hfs]
  refine ⟨_, hds, by rw [hvals], ?_⟩
  intro hstrict
  have hmemlt : ∀ a ∈ idx, a < fs.length := fun a ha =>
    List.mem_range.mp (hidx.1.mem_iff.mp ha)
  have hpw : idx.Pairwise (fun a b => fs.getD a 0 ≤ fs.getD b 0) :=
    List.pairwise_map.mp hidx.2
  have hidxsorted : idx.Sorted (· ≤ ·) := by
    refine hpw.imp_of_mem ?_
    intro a b ha hb hab
    by_contra hba
    push_neg at hba
    exact absurd hab
      (not_le.mpr (strict_sorted_getD_lt hstrict hba (hmemlt a ha)))
  have hidx_eq : idx = List.range fs.length :=
    List.eq_of_perm_of_sorted hidx.1 hidxsorted (List.sorted_le_range _)
  obtain ⟨sx, ofs, xt, ft, ni, mi, ep, rk, ns, nu, fin⟩ := s
  simp only at hfs hlen ⊢
  subst hfs
  rw [hvals, hidx_eq, hlen, np_take_range]

/-- Witness for the amended C9 at the strictly sorted state `C9w` with the
identity index array. -/
theorem do_sort_sorted_spec_witness :
    ∃ s', do_sort_nd [0, 1] C9w = some s' ∧ s'.fun_simplex = some [1, 2] ∧
      (List.Pairwise (· < ·) ([1, 2] : List ℚ) → s' = C9w) :=
  do_sort_sorted_spec C9w [1, 2] [0, 1] rfl (by decide) (by decide)
    ⟨by decide, by decide⟩

/-! ## Claim C3 -/

/-- The ℚ-encoding of the norm comparison agrees with the real comparison:
`normLtB d t` is true exactly when `√d < t` over the reals. -/
theorem normLtB_iff_sqrt_lt (d t : ℚ) :
    normLtB d t = true ↔ Real.sqrt (d : ℝ) < (t : ℝ) := by
  unfold normLtB
  rw [Bool.and_eq_true, decide_eq_true_iff, decide_eq_true_iff]
  constructor
  · rintro ⟨ht, hd⟩
    have ht' : (0 : ℝ) < (t : ℝ) := by exact_mod_cast ht
    rw [Real.sqrt_lt' ht']
    have : ((d : ℝ)) < (t : ℝ) * (t : ℝ) := by exact_mod_cast hd
    nlinarith
  · intro h
    have ht' : (0 : ℝ) < (t : ℝ) :=
      lt_of_le_of_lt (Real.sqrt_nonneg _) h
    have ht : (0 : ℚ) < t := by exact_mod_cast ht'
    refine ⟨ht, ?_⟩
    rw [Real.sqrt_lt' ht'] at h
    have : ((d : ℝ)) < (t : ℝ) * (t : ℝ) := by nlinarith
    exact_mod_cast this

/-- Claim C3: `check_finished` sets `finished` to true iff BOTH the maximum
Euclidean distance from every non-best vertex to the best vertex is strictly
below `xtol` AND the maximum absolute cost difference to the best cost is
strictly below `ftol` — a conjunction, not a disjunction.  (The maximum of
the nonempty list being below the bound is each element being below it.) -/
theorem check_finished_conjunction (s : NelderMead) (fs : List ℚ)
    (hfs : s.fun_simplex = some fs)
    (_hsx : s.simplex.tail ≠ []) (_hft : fs.tail ≠ []) :
    ∃ s', check_finished s = some s' ∧
      (s'.finished = true ↔
        ((∀ v ∈ s.simplex.tail,
            Real.sqrt ((sqNorm (vecSub v s.simplex.headI) : ℚ) : ℝ)
              < (s.xtol : ℝ))
          ∧ (∀ f ∈ fs.tail, |f - fs.headI| < s.ftol))) := by
  refine ⟨{ s with finished := check_fin s.simplex fs s.xtol s.ftol },
    by simp [check_finished, hfs], ?_⟩
  simp only [check_fin, Bool.and_eq_true, List.all_eq_true]
  constructor
  · rintro ⟨h1, h2⟩
    refine ⟨fun v hv => ?_, fun f hf => ?_⟩
    · exact (normLtB_iff_sqrt_lt _ _).mp (h1 v hv)
    · exact of_decide_eq_true (h2 f hf)
  · rintro ⟨h1, h2⟩
    refine ⟨fun v hv => ?_, fun f hf => ?_⟩
    · exact (normLtB_iff_sqrt_lt _ _).mpr (h1 v hv)
    · exact decide_eq_true (h2 f hf)

/-- Witness for C3 at the concrete converged state `E2`. -/
theorem check_finished_conjunction_witness :
    E2.fun_simplex = some [0, 0] ∧ E2.simplex.tail ≠ [] ∧
      ([0, 0] : List ℚ).tail ≠ [] ∧
      ∃ s', check_finished E2 = some s' ∧
        (s'.finished = true ↔
          ((∀ v ∈ E2.simplex.tail,
              Real.sqrt ((sqNorm (vecSub v E2.simplex.headI) : ℚ) : ℝ)
                < (E2.xtol : ℝ))
            ∧ (∀ f ∈ ([0, 0] : List ℚ).tail, |f - ([0, 0] : List ℚ).headI| < E2.ftol))) :=
  ⟨rfl, by decide, by decide,
    check_finished_conjunction E2 [0, 0] rfl (by decide) (by decide)⟩

/-! ## Claim C1 -/

/-- Claim C1: in the choose-step update with reflected point `xr`, cost
`fxr`, and sorted values `f(best) ≤ … ≤ f(second-worst) ≤ f(worst)`:
if `fxr < f(best)` the next submit phase is `submit_expansion`; elif
`fxr < f(second-worst)` the worst vertex and its value are replaced by
`(xr, fxr)` and the next submit phase is `new_iter` (no further submission
this round); elif `fxr < f(worst)` the next phase is `submit_contraction`;
else it is `submit_inside_contraction`. -/
theorem choose_step_branch_spec (s : NelderMead) (fs : List ℚ) (i : ℕ)
    (xr : Vec) (fxr : ℚ) (hfs : s.fun_simplex = some fs)
    (hlen : 2 ≤ fs.length) (_hsorted : List.Sorted (· ≤ ·) fs) :
    (fxr < fs.headI →
      update_step .choose_step [(i, (xr, fxr))] s
        = some { s with extra_points := some (xr, fxr),
                        next_submit := some .submit_expansion,
                        next_update := none })
    ∧ (¬ fxr < fs.headI → fxr < fs.getD (fs.length - 2) 0 →
      update_step .choose_step [(i, (xr, fxr))] s
        = some { s with extra_points := some (xr, fxr),
                        simplex := s.simplex.set (s.simplex.length - 1) xr,
                        fun_simplex := some (fs.set (fs.length - 1) fxr),
                        next_submit := some .new_iter,
                        next_update := none })
    ∧ (¬ fxr < fs.headI → ¬ fxr < fs.getD (fs.length - 2) 0 →
        fxr < fs.getLastD 0 →
      update_step .choose_step [(i, (xr, fxr))] s
        = some { s with extra_points := some (xr, fxr),
                        next_submit := some .submit_contraction,
                        next_update := none })
    ∧ (¬ fxr < fs.headI → ¬ fxr < fs.getD (fs.length - 2) 0 →
        ¬ fxr < fs.getLastD 0 →
      update_step .choose_step [(i, (xr, fxr))] s
        = some { s with extra_points := some (xr, fxr),
                        next_submit := some .submit_inside_contraction,
                        next_update := none }) := by
  have h0 : ¬ fs.length = 0 := by omega
  have h2 : ¬ fs.length < 2 := by omega
  have hne : fs ≠ [] := fun h => h0 (by simp [h])
  refine ⟨fun hb1 => ?_, fun hb1 hb2 => ?_, fun hb1 hb2 hb3 => ?_,
    fun hb1 hb2 hb3 => ?_⟩ <;>
  · try simp only [List.getD_eq_getElem?_getD] at hb2
    try simp only [List.getLastD_eq_getLast?] at hb3
    simp [update_step, get_single_result, update_decor, hfs, update_last,
      h0, h2, hne, hb1, *]

/-- Witness for C1: the expansion branch at a concrete call. -/
theorem choose_step_branch_spec_witness :
    update_step .choose_step [(7, ([5, 5], 0))]
      ⟨[[0, 0], [1, 0], [0, 1]], some [1, 2, 3], 1 / 10000, 1 / 10000, 2,
       1000, none, "cost_value", none, some .choose_step, false⟩
      = some ⟨[[0, 0], [1, 0], [0, 1]], some [1, 2, 3], 1 / 10000, 1 / 10000,
              2, 1000, some ([5, 5], 0), "cost_value",
              some .submit_expansion, none, false⟩ :=
  (choose_step_branch_spec
    ⟨[[0, 0], [1, 0], [0, 1]], some [1, 2, 3], 1 / 10000, 1 / 10000, 2,
     1000, none, "cost_value", none, some .choose_step, false⟩
    [1, 2, 3] 7 [5, 5] 0 rfl (by decide) (by decide)).1 (by decide)

/-! ## Claim C7 (corrected) -/

/-- Counterexample to C7 as stated: the collaborator may assign identifiers
in any order, but `_get_values` sorts the delivered batch by identifier.
Delivering the batch `C7outs` — whose `k`-th element is the result for the
`k`-th submitted vertex, with identifiers `1` then `0` — makes
`update_initialize` record the value vector `[7, 5]`, although the costs in
submission order were `[5, 7]`: the 0th entry (`7`) is not the cost returned
for the 0th submitted vertex (`5`). -/
theorem get_values_id_order_counterexample :
    update_step .update_init C7outs C7state
      = some { C7state with fun_simplex := some [7, 5],
                            next_submit := some .new_iter,
                            next_update := none }
    ∧ C7outs.map (fun p => p.2.2) = [5, 7]
    ∧ ([7, 5] : List ℚ).headI ≠ ([5, 7] : List ℚ).headI :=
  ⟨by simp [update_step, update_decor, get_values, C7outs, C7state,
     List.mergeSort, List.merge], by decide, by decide⟩

/-- Claim C7 (amended): after `update_initialize` on a batch listed in
submission order, the function-value vector preserves the submission order
*provided* the collaborator assigned identifiers in increasing submission
order (as the sequential-identifier orchestrator does); and when the batch
has one result per simplex vertex, the vector's length equals the number of
simplex vertices. -/
theorem update_init_preserves_submission_order (s : NelderMead)
    (outs : Outputs) (hids : outs.Pairwise (fun a b => a.1 ≤ b.1)) :
    ∃ s', update_step .update_init outs s = some s' ∧
      s'.fun_simplex = some (outs.map (fun p => p.2.2)) ∧
      s'.next_submit = some .new_iter ∧ s'.next_update = none ∧
      (outs.length = s.simplex.length →
        (outs.map (fun p => p.2.2)).length = s.simplex.length) := by
  have hsortid : get_values outs = outs.map (fun p => p.2.2) := by
    unfold get_values
    rw [List.mergeSort_of_sorted (hids.imp (fun hh => decide_eq_true hh))]
  refine ⟨_, rfl, ?_, rfl, rfl, ?_⟩
  · simp [update_step, update_decor, hsortid]
  · intro h
    simpa using h

/-- Witness for the amended C7 at a concrete increasing-identifier batch. -/
theorem update_init_preserves_submission_order_witness :
    ∃ s', update_step .update_init P1 E1 = some s' ∧
      s'.fun_simplex = some (P1.map (fun p => p.2.2)) ∧
      s'.next_submit = some .new_iter ∧ s'.next_update = none ∧
      (P1.length = E1.simplex.length →
        (P1.map (fun p => p.2.2)).length = E1.simplex.length) :=
  update_init_preserves_submission_order E1 P1 (by decide)

/-! ## Claim C8 -/

/-- The scan step of Python's `min(..., key=...)`: keep the incumbent unless
the new item's cost is strictly smaller. -/
theorem min_scan_mem (xs : List (ℕ × Output)) (x : ℕ × Output) :
    xs.foldl (fun best item => if item.2.2 < best.2.2 then item else best) x
        = x
      ∨ xs.foldl (fun best item => if item.2.2 < best.2.2 then item else best)
          x ∈ xs := by
  induction xs generalizing x with
  | nil => exact Or.inl rfl
  | cons e rest ih =>
    rcases ih (if e.2.2 < x.2.2 then e else x) with h | h
    · by_cases he : e.2.2 < x.2.2
      · right
        rw [List.foldl_cons, h, if_pos he]
        exact List.mem_cons_self e rest
      · left
        rw [List.foldl_cons, h, if_neg he]
    · right
      exact List.mem_cons_of_mem e h

/-- The scan result is a lower bound for the accumulator and all items. -/
theorem min_scan_le (xs : List (ℕ × Output)) (x : ℕ × Output) :
    (xs.foldl (fun best item => if item.2.2 < best.2.2 then item else best)
        x).2.2 ≤ x.2.2
      ∧ ∀ e ∈ xs,
        (xs.foldl (fun best item => if item.2.2 < best.2.2 then item else best)
            x).2.2 ≤ e.2.2 := by
  induction xs generalizing x with
  | nil => exact ⟨le_refl _, by simp⟩
  | cons e rest ih =>
    obtain ⟨h1, h2⟩ := ih (if e.2.2 < x.2.2 then e else x)
    rw [List.foldl_cons]
    by_cases he : e.2.2 < x.2.2
    · rw [if_pos he] at h1 h2 ⊢
      exact ⟨le_trans h1 (le_of_lt he),
        fun b hb => (List.mem_cons.mp hb).elim (fun hh => hh ▸ h1)
          (fun hh => h2 b hh)⟩
    · rw [if_neg he] at h1 h2 ⊢
      exact ⟨h1, fun b hb => (List.mem_cons.mp hb).elim
        (fun hh => hh ▸ le_trans h1 (le_of_not_lt he)) (fun hh => h2 b hh)⟩

/-- The scan result sits at the *first* position of `x :: xs` attaining the
minimum: every earlier entry has strictly larger cost. -/
theorem min_scan_first (xs : List (ℕ × Output)) (x : ℕ × Output) :
    ∃ k, k < xs.length + 1 ∧
      (x :: xs).getD k (0, ([], 0))
        = xs.foldl (fun best item => if item.2.2 < best.2.2 then item else best)
            x
      ∧ ∀ j < k,
        (xs.foldl (fun best item => if item.2.2 < best.2.2 then item else best)
            x).2.2 < ((x :: xs).getD j (0, ([], 0))).2.2 := by
  induction xs generalizing x with
  | nil => exact ⟨0, Nat.zero_lt_one, rfl, fun j hj => by omega⟩
  | cons e rest ih =>
    obtain ⟨k', hk', hget', hfirst'⟩ := ih (if e.2.2 < x.2.2 then e else x)
    rw [List.foldl_cons]
    by_cases he : e.2.2 < x.2.2
    · rw [if_pos he] at hget' hfirst' ⊢
      refine ⟨k' + 1, by simpa using hk', ?_, ?_⟩
      · simpa using hget'
      · intro j hj
        cases j with
        | zero =>
          have hle := (min_scan_le rest e).1
          simpa using lt_of_le_of_lt hle he
        | succ j' =>
          have := hfirst' j' (by omega)
          simpa using this
    · rw [if_neg he] at hget' hfirst' ⊢
      cases k' with
      | zero =>
        refine ⟨0, by omega, by simpa using hget', fun j hj => by omega⟩
      | succ k'' =>
        refine ⟨k'' + 2, by simpa using hk', by simpa using hget', ?_⟩
        intro j hj
        cases j with
        | zero =>
          have := hfirst' 0 (by omega)
          simpa using this
        | succ j' =>
          cases j' with
          | zero =>
            have h0 := hfirst' 0 (by omega)
            simp only [List.getD_cons_zero] at h0
            have hxe : x.2.2 ≤ e.2.2 := le_of_not_lt he
            simpa using lt_of_lt_of_le h0 hxe
          | succ j'' =>
            have := hfirst' (j'' + 1) (by omega)
            simpa using this

/-- Claim C8: once the engine is finished (and the `result_value` assertion
precondition holds: the head of the sorted value vector is the least cost in
the mapping, which C10 establishes for reachable runs), `result_value` and
`result_index` return the cost and identifier of the minimum-cost entry of
the *full* result mapping, and among ties the entry earliest in the
mapping's insertion order wins. -/
theorem optimal_result_first_min (s : NelderMead) (m : ResultMapping)
    (x : ℕ × Output) (xs : List (ℕ × Output)) (hm : m = x :: xs)
    (_hfin : is_finished s = true) (fs : List ℚ)
    (hfs : s.fun_simplex = some fs) (hne : fs ≠ [])
    (hlow : ∀ e ∈ m, fs.headI ≤ e.2.2)
    (hattain : ∃ e ∈ m, e.2.2 = fs.headI) :
    ∃ r k, get_optimal_result m = some r ∧
      result_index m = some r.1 ∧ result_value s m = some r.2.2 ∧
      r.2.2 = fs.headI ∧
      (∀ e ∈ m, r.2.2 ≤ e.2.2) ∧
      k < m.length ∧ m.getD k (0, ([], 0)) = r ∧
      (∀ j < k, r.2.2 < (m.getD j (0, ([], 0))).2.2) := by
  subst hm
  set r := xs.foldl (fun best item => if item.2.2 < best.2.2 then item else best) x with hr
  have hropt : get_optimal_result (x :: xs) = some r := rfl
  have hmem : r ∈ x :: xs := by
    rcases min_scan_mem xs x with h | h
    · rw [hr, h]; exact List.mem_cons_self x xs
    · exact List.mem_cons_of_mem x h
  have hlb : ∀ e ∈ x :: xs, r.2.2 ≤ e.2.2 := by
    intro e he
    rcases List.mem_cons.mp he with h | h
    · exact h ▸ (min_scan_le xs x).1
    · exact (min_scan_le xs x).2 e h
  have hval : r.2.2 = fs.headI := by
    obtain ⟨e, he, hev⟩ := hattain
    exact le_antisymm (hev ▸ hlb e he) (hlow r hmem)
  obtain ⟨k, hk, hkget, hkfirst⟩ := min_scan_first xs x
  refine ⟨r, k, hropt, ?_, ?_, hval, hlb, by simpa using hk, hkget, hkfirst⟩
  · simp [result_index, hropt]
  · obtain ⟨f0, ft, rfl⟩ : ∃ f0 ft, fs = f0 :: ft := by
      cases fs with
      | nil => exact absurd rfl hne
      | cons a t => exact ⟨a, t, rfl⟩
    simp only [List.headI_cons] at hval
    simp [result_value, hropt, hfs, hval]

/-- Witness for C8: a mapping whose minimum cost `0` is attained twice; the
first-inserted minimal entry (identifier `1`, at position 1) is returned. -/
theorem optimal_result_first_min_witness :
    ∃ r k, get_optimal_result
          ([(0, ([0], 3)), (1, ([1], 0)), (2, ([2], 0))] : ResultMapping)
        = some r ∧
      result_index ([(0, ([0], 3)), (1, ([1], 0)), (2, ([2], 0))] : ResultMapping)
        = some r.1 ∧
      result_value E4 ([(0, ([0], 3)), (1, ([1], 0)), (2, ([2], 0))] : ResultMapping)
        = some r.2.2 ∧
      r.2.2 = ([0, 0] : List ℚ).headI ∧
      (∀ e ∈ ([(0, ([0], 3)), (1, ([1], 0)), (2, ([2], 0))] : ResultMapping),
          r.2.2 ≤ e.2.2) ∧
      k < ([(0, ([0], 3)), (1, ([1], 0)), (2, ([2], 0))] : ResultMapping).length ∧
      ([(0, ([0], 3)), (1, ([1], 0)), (2, ([2], 0))] : ResultMapping).getD k
          (0, ([], 0)) = r ∧
      (∀ j < k, r.2.2
        < (([(0, ([0], 3)), (1, ([1], 0)), (2, ([2], 0))] : ResultMapping).getD
            j (0, ([], 0))).2.2) :=
  by
  exact optimal_result_first_min E4 _ (0, ([0], 3)) [(1, ([1], 0)), (2, ([2], 0))]
    rfl rfl [0, 0] rfl (by decide) (by decide)
    ⟨(1, ([1], 0)), by decide, by decide⟩

/-! ## Claim C6 -/

/-- Claim C6: round-trip through serialization: reconstructing an engine from
the serialized flat field mapping (`nm_from_state` applied to the `_state`
mapping, which excludes the externally-owned result mapping) succeeds and
yields the very same engine, so replaying any sequence of external results
produces identical `create_inputs` output. -/
theorem state_roundtrip_replay (s : NelderMead)
    (h : simplex_ok s.simplex = true) :
    nm_from_state (nm_state s) = some s ∧
      ∀ outs : List Outputs,
        (nm_from_state (nm_state s)).map (fun s' => replay s' outs)
          = some (replay s outs) := by
  have h1 : nm_from_state (nm_state s) = some s := by
    simp [nm_from_state, nm_state, nm_new, h]
  exact ⟨h1, fun outs => by rw [h1]; rfl⟩

/-- Witness for C6 at the concrete mid-run state `E2`. -/
theorem state_roundtrip_replay_witness :
    simplex_ok E2.simplex = true ∧
      (nm_from_state (nm_state E2) = some E2 ∧
        ∀ outs : List Outputs,
          (nm_from_state (nm_state E2)).map (fun s' => replay s' outs)
            = some (replay E2 outs)) :=
  ⟨by decide, state_roundtrip_replay E2 (by decide)⟩

/-! ## Componentwise formulas for the vector operations (used by C4) -/

theorem vecAdd_getD {a b : Vec} {j : ℕ} (ha : j < a.length)
    (hb : j < b.length) :
    (vecAdd a b).getD j 0 = a.getD j 0 + b.getD j 0 := by
  unfold vecAdd
  rw [List.getD_eq_getElem?_getD, List.getElem?_zipWith, List.getD_eq_getElem?_getD,
    List.getD_eq_getElem?_getD, List.getElem?_eq_getElem ha,
    List.getElem?_eq_getElem hb]
  simp

theorem vecSub_getD {a b : Vec} {j : ℕ} (ha : j < a.length)
    (hb : j < b.length) :
    (vecSub a b).getD j 0 = a.getD j 0 - b.getD j 0 := by
  unfold vecSub
  rw [List.getD_eq_getElem?_getD, List.getElem?_zipWith, List.getD_eq_getElem?_getD,
    List.getD_eq_getElem?_getD, List.getElem?_eq_getElem ha,
    List.getElem?_eq_getElem hb]
  simp

theorem vecSMul_getD (c : ℚ) {v : Vec} {j : ℕ} (hj : j < v.length) :
    (vecSMul c v).getD j 0 = c * v.getD j 0 := by
  unfold vecSMul
  rw [List.getD_eq_getElem?_getD, List.getElem?_map,
    List.getD_eq_getElem?_getD, List.getElem?_eq_getElem hj]
  simp

theorem vecAdd_length {a b : Vec} : (vecAdd a b).length = min a.length b.length := by
  simp [vecAdd]

theorem vecSub_length {a b : Vec} : (vecSub a b).length = min a.length b.length := by
  simp [vecSub]

theorem vecSMul_length (c : ℚ) (v : Vec) : (vecSMul c v).length = v.length := by
  simp [vecSMul]

theorem vecSum_length {L : List Vec} {d : ℕ} (hne : L ≠ [])
    (hrect : ∀ r ∈ L, r.length = d) : (vecSum L).length = d := by
  induction L with
  | nil => exact absurd rfl hne
  | cons v rest ih =>
    cases rest with
    | nil => simpa using hrect v (by simp)
    | cons w u =>
      rw [show vecSum (v :: w :: u) = vecAdd v (vecSum (w :: u)) from rfl,
        vecAdd_length, ih (by simp) (fun r hr => hrect r (List.mem_cons_of_mem v hr)),
        hrect v (by simp)]
      simp

theorem vecSum_getD {L : List Vec} {d j : ℕ} (hne : L ≠ [])
    (hrect : ∀ r ∈ L, r.length = d) (hj : j < d) :
    (vecSum L).getD j 0 = (L.map (fun r => r.getD j 0)).sum := by
  induction L with
  | nil => exact absurd rfl hne
  | cons v rest ih =>
    cases rest with
    | nil => simp [vecSum]
    | cons w u =>
      have hrest : ∀ r ∈ w :: u, r.length = d :=
        fun r hr => hrect r (List.mem_cons_of_mem v hr)
      rw [show vecSum (v :: w :: u) = vecAdd v (vecSum (w :: u)) from rfl,
        vecAdd_getD (by rw [hrect v (by simp)]; exact hj)
          (by rw [vecSum_length (by simp) hrest]; exact hj),
        ih (by simp) hrest]
      simp

/-! ## Properties of the sort step -/

theorem do_sort_pair_perm {sx : List Vec} {fs : List ℚ} {sx' : List Vec}
    {fs' : List ℚ} (hlen : fs.length = sx.length)
    (h : do_sort_pair sx fs = (sx', fs')) :
    fs'.Perm fs ∧ sx'.Perm sx ∧ List.Sorted (· ≤ ·) fs' := by
  have hperm : ((fs.zip sx).mergeSort (fun a b => decide (a.1 ≤ b.1))).Perm
      (fs.zip sx) := List.mergeSort_perm _ _
  have hfs' : fs' = ((fs.zip sx).mergeSort
      (fun a b => decide (a.1 ≤ b.1))).map Prod.fst := by
    have := congrArg Prod.snd h
    simpa [do_sort_pair] using this.symm
  have hsx' : sx' = ((fs.zip sx).mergeSort
      (fun a b => decide (a.1 ≤ b.1))).map Prod.snd := by
    have := congrArg Prod.fst h
    simpa [do_sort_pair] using this.symm
  refine ⟨?_, ?_, ?_⟩
  · have h1 := hperm.map Prod.fst
    rw [List.map_fst_zip fs sx (le_of_eq hlen)] at h1
    rw [hfs']
    exact h1
  · have h1 := hperm.map Prod.snd
    rw [List.map_snd_zip fs sx (le_of_eq hlen.symm)] at h1
    rw [hsx']
    exact h1
  · have hs : ((fs.zip sx).mergeSort (fun a b => decide (a.1 ≤ b.1))).Pairwise
        (fun a b => decide (a.1 ≤ b.1) = true) :=
      @List.sorted_mergeSort (ℚ × Vec) (fun a b => decide (a.1 ≤ b.1))
        (fun a b c hab hbc => decide_eq_true
          (le_trans (of_decide_eq_true hab) (of_decide_eq_true hbc)))
        (fun a b => by
          rcases le_total a.1 b.1 with hh | hh <;>
            simp [decide_eq_true hh])
        (fs.zip sx)
    rw [hfs', List.Sorted, List.pairwise_map]
    exact hs.imp (fun hh => of_decide_eq_true hh)

theorem do_sort_pair_lengths {sx : List Vec} {fs : List ℚ} {sx' : List Vec}
    {fs' : List ℚ} (hlen : fs.length = sx.length)
    (h : do_sort_pair sx fs = (sx', fs')) :
    fs'.length = fs.length ∧ sx'.length = sx.length := by
  obtain ⟨h1, h2, _⟩ := do_sort_pair_perm hlen h
  exact ⟨h1.length_eq, h2.length_eq⟩

/-! ## Claim C4 -/

/-- Claim C4: on a non-converged state, the `new_iter` submit phase
increments the iteration count, emits exactly one candidate
`xr = (1+ρ)·centroid − ρ·worst` (ρ = 1), where the centroid is the
coordinate-wise average of all sorted-simplex vertices except the worst one,
and sets the update pointer to `choose_step`. -/
theorem new_iter_reflection_spec (s : NelderMead) (fs : List ℚ)
    (sx' : List Vec) (fs' : List ℚ) (hfs : s.fun_simplex = some fs)
    (hlen : fs.length = s.simplex.length) (hlen2 : 2 ≤ s.simplex.length)
    (hrect : ∀ r ∈ s.simplex, r.length = s.simplex.headI.length)
    (hsort : do_sort_pair s.simplex fs = (sx', fs'))
    (hnc : check_fin sx' fs' s.xtol s.ftol = false) :
    ∃ s' xr, submit_step .new_iter s = some (s', [to_input_list xr]) ∧
      s'.num_iter = s.num_iter + 1 ∧
      s'.next_update = some .choose_step ∧ s'.next_submit = none ∧
      s'.simplex = sx' ∧ s'.fun_simplex = some fs' ∧
      RHO = 1 ∧
      (∀ j < s.simplex.headI.length,
        xr.getD j 0 = (1 + RHO) *
          ((sx'.dropLast.map (fun r => r.getD j 0)).sum
            / ((sx'.length - 1 : ℕ) : ℚ))
          - RHO * (lastRow sx').getD j 0) := by
  obtain ⟨hpf, hps, _⟩ := do_sort_pair_perm hlen hsort
  have hsxlen : sx'.length = s.simplex.length := hps.length_eq
  have hrect' : ∀ r ∈ sx', r.length = s.simplex.headI.length :=
    fun r hr => hrect r (hps.mem_iff.mp hr)
  have hsxne : sx' ≠ [] := by
    intro hh
    rw [hh] at hsxlen
    simp at hsxlen
    omega
  have hstep : submit_step .new_iter s = some
      ({ s with simplex := sx', fun_simplex := some fs',
                finished := false, num_iter := s.num_iter + 1,
                next_submit := none, next_update := some .choose_step },
        [to_input_list (vecSub (vecSMul (1 + RHO) (xbar sx'))
          (vecSMul RHO (lastRow sx')))]) := by
    simp [submit_step, submit_decor, do_sort, check_finished, hfs, hsort, hnc]
  refine ⟨_, _, hstep, rfl, rfl, rfl, rfl, rfl, rfl, ?_⟩
  intro j hj
  set d := s.simplex.headI.length with hd
  have hlast_mem : lastRow sx' ∈ sx' := by
    unfold lastRow
    rw [List.getLastD_eq_getLast?]
    cases hx : sx'.getLast? with
    | none => exact absurd (List.getLast?_eq_none_iff.mp hx) hsxne
    | some a =>
      exact List.mem_of_mem_getLast? (by rw [hx]; simp)
  have hlast_len : (lastRow sx').length = d := hrect' _ hlast_mem
  have hdrop_rect : ∀ r ∈ sx'.dropLast, r.length = d :=
    fun r hr => hrect' r ((List.dropLast_sublist sx').subset hr)
  have hdropne : sx'.dropLast ≠ [] := by
    have hl : sx'.dropLast.length = sx'.length - 1 := List.length_dropLast sx'
    intro hh
    rw [hh] at hl
    simp at hl
    omega
  have hsum_len : (vecSum sx'.dropLast).length = d :=
    vecSum_length hdropne hdrop_rect
  have hxbar_len : (xbar sx').length = d := by
    rw [xbar, vecSMul_length]
    exact hsum_len
  rw [vecSub_getD (by rw [vecSMul_length, hxbar_len]; exact hj)
      (by rw [vecSMul_length, hlast_len]; exact hj),
    vecSMul_getD _ (by rw [hxbar_len]; exact hj),
    vecSMul_getD _ (by rw [hlast_len]; exact hj)]
  rw [xbar, vecSMul_getD _ (by rw [hsum_len]; exact hj),
    vecSum_getD hdropne hdrop_rect hj]
  ring

/-- Witness for C4 at the concrete state `C4s`. -/
theorem new_iter_reflection_spec_witness :
    ∃ s' xr, submit_step .new_iter C4s = some (s', [to_input_list xr]) ∧
      s'.num_iter = C4s.num_iter + 1 ∧
      s'.next_update = some .choose_step ∧ s'.next_submit = none ∧
      s'.simplex = ([[0], [2]] : List Vec) ∧ s'.fun_simplex = some [1, 9] ∧
      RHO = 1 ∧
      (∀ j < C4s.simplex.headI.length,
        xr.getD j 0 = (1 + RHO) *
          ((([[0], [2]] : List Vec).dropLast.map (fun r => r.getD j 0)).sum
            / ((([[0], [2]] : List Vec).length - 1 : ℕ) : ℚ))
          - RHO * (lastRow ([[0], [2]] : List Vec)).getD j 0) :=
  new_iter_reflection_spec C4s [1, 9] ([[0], [2]] : List Vec) [1, 9] rfl
    (by decide) (by decide) (by decide)
    (by simp [C4s, do_sort_pair, List.mergeSort, List.merge])
    (by with_unfolding_all decide)

/-! ## Helper lemmas for the reachability invariant -/

theorem envEntries_costs : ∀ (xs : List Input) (fs : List ℚ) (i : ℕ),
    fs.length = xs.length → pendCosts (envEntries i xs fs) = fs
  | [], [], _, _ => rfl
  | [], _ :: _, _, h => by simp at h
  | _ :: _, [], _, h => by simp at h
  | x :: xs, f :: fs, i, h => by
    have ih := envEntries_costs xs fs (i + 1) (by simpa using h)
    simp only [envEntries, pendCosts, List.map_cons] at ih ⊢
    rw [ih]

theorem mapCosts_append (a b : ResultMapping) :
    mapCosts (a ++ b) = mapCosts a ++ mapCosts b := List.map_append _ a b

theorem mapCosts_pendCosts (o : Outputs) : mapCosts o = pendCosts o := rfl

theorem get_values_perm (outs : Outputs) :
    (get_values outs).Perm (pendCosts outs) := by
  unfold get_values pendCosts
  exact (List.mergeSort_perm outs _).map _

theorem getD_mem {l : List ℚ} {k : ℕ} (h : k < l.length) : l.getD k 0 ∈ l := by
  rw [List.getD_eq_getElem?_getD, List.getElem?_eq_getElem h]
  exact List.getElem_mem h

theorem getLastD_mem {l : List ℚ} (h : l ≠ []) : l.getLastD 0 ∈ l := by
  rw [List.getLastD_eq_getLast?]
  exact List.mem_of_mem_getLast? (by simp [List.getLast?_eq_getLast _ h])

theorem envEntries_length {xs : List Input} {fs : List ℚ} (i : ℕ)
    (h : fs.length = xs.length) :
    (envEntries i xs fs).length = xs.length := by
  have h1 : (pendCosts (envEntries i xs fs)).length = fs.length := by
    rw [envEntries_costs xs fs i h]
  simpa [pendCosts, h] using h1

theorem mem_lows_fun {w : World} {c : ℚ} (h : c ∈ funCosts w.engine) :
    c ∈ lows w :=
  List.mem_append_left _ (List.mem_append_left _ h)

theorem mem_lows_pend {w : World} {c : ℚ} (h : c ∈ pendCosts w.pending) :
    c ∈ lows w :=
  List.mem_append_left _ (List.mem_append_right _ h)

theorem mem_lows_extra {w : World} {c : ℚ}
    (h : c ∈ extraCosts w.engine.extra_points) : c ∈ lows w :=
  List.mem_append_right _ h

theorem lows_cases {w : World} {c : ℚ} (h : c ∈ lows w) :
    c ∈ funCosts w.engine ∨ c ∈ pendCosts w.pending ∨
      c ∈ extraCosts w.engine.extra_points := by
  rcases List.mem_append.mp h with h1 | h1
  · rcases List.mem_append.mp h1 with h2 | h2
    · exact Or.inl h2
    · exact Or.inr (Or.inl h2)
  · exact Or.inr (Or.inr h1)

theorem mem_mapCosts_left {a b : ResultMapping} {c : ℚ}
    (h : c ∈ mapCosts a) : c ∈ mapCosts (a ++ b) := by
  rw [mapCosts_append]
  exact List.mem_append_left _ h

theorem mem_mapCosts_right {a b : ResultMapping} {c : ℚ}
    (h : c ∈ mapCosts b) : c ∈ mapCosts (a ++ b) := by
  rw [mapCosts_append]
  exact List.mem_append_right _ h

/-! ## Preservation of the invariant by submit steps -/

theorem winv_submit (w : World) (p : Phase) (e' : NelderMead)
    (xs : List Input) (fs : List ℚ) (hI : WInv w)
    (hns : w.engine.next_submit = some p)
    (hstep : submit_step p w.engine = some (e', xs))
    (hlen : fs.length = xs.length) :
    WInv ⟨e', w.mapping ++ envEntries w.mapping.length xs fs,
          envEntries w.mapping.length xs fs⟩ := by
  obtain ⟨eng, m, pend⟩ := w
  simp only at hns hstep ⊢
  obtain ⟨hB, hP⟩ := hI
  unfold PhaseInv at hP
  simp only at hP
  rw [hns] at hP
  obtain ⟨hA, hLow, hX, hPend, hLen, hN⟩ := hB
  simp only at hA hLow hX hPend hLen hN
  cases p with
  | submit_init =>
    cases hnu : eng.next_update with
    | some q => rw [hnu] at hP; cases q <;> simp [PhasePred] at hP
    | none =>
      rw [hnu] at hP
      simp only [PhasePred] at hP
      obtain ⟨hfun, hextra, hfin, hpend⟩ := hP
      simp only [submit_step, submit_decor, Option.some.injEq,
        Prod.mk.injEq] at hstep
      obtain ⟨he', hxs⟩ := hstep
      subst he' hxs
      have hcosts : pendCosts (envEntries m.length
          (eng.simplex.map to_input_list) fs) = fs :=
        envEntries_costs _ _ _ (by simpa using hlen)
      constructor
      · refine ⟨?_, ?_, ?_, ?_, ?_, ?_⟩
        · intro c hc
          simp [funCosts, hfun] at hc
        · intro c hc
          rw [mapCosts_append] at hc
          rcases List.mem_append.mp hc with hc | hc
          · obtain ⟨d, hd, _⟩ := hLow c hc
            simp [lows, funCosts, pendCosts, extraCosts, hfun, hpend,
              hextra] at hd
          · refine ⟨c, ?_, le_refl c⟩
            simp only [lows]
            rw [List.mem_append]
            refine Or.inl ?_
            rw [List.mem_append]
            refine Or.inr ?_
            rw [mapCosts_pendCosts, hcosts] at hc
            rw [hcosts]
            exact hc
        · intro c hc
          simp [extraCosts, hextra] at hc
        · intro c hc
          rw [mapCosts_append, List.mem_append]
          right
          rw [hcosts] at hc
          rw [mapCosts_pendCosts, hcosts]
          exact hc
        · intro fs' h
          simp [hfun] at h
        · exact hN
      · unfold PhaseInv
        simp only [PhasePred]
        refine ⟨hfun, hextra, hfin, ?_⟩
        rw [envEntries_length _ (by simpa using hlen)]
        simp
  | new_iter =>
    cases hnu : eng.next_update with
    | some q => rw [hnu] at hP; cases q <;> simp [PhasePred] at hP
    | none =>
      rw [hnu] at hP
      simp only [PhasePred] at hP
      obtain ⟨hfunS, hEx, hfin, hpend⟩ := hP
      obtain ⟨fs0, hfs0⟩ := Option.isSome_iff_exists.mp hfunS
      rcases hdsp : do_sort_pair eng.simplex fs0 with ⟨sx', fs'⟩
      have hlen0 : fs0.length = eng.simplex.length := hLen fs0 hfs0
      obtain ⟨hpf, hps, hsorted⟩ := do_sort_pair_perm hlen0 hdsp
      have hlenf' : fs'.length = sx'.length := by
        rw [hpf.length_eq, hps.length_eq, hlen0]
      have hN' : 1 ≤ sx'.length := by rw [hps.length_eq]; exact hN
      have hExtra' : ∀ c ∈ extraCosts eng.extra_points, ∃ d ∈ fs', d ≤ c := by
        intro c hc
        obtain ⟨d, hd, hdc⟩ := hEx c hc
        rw [funCosts, hfs0] at hd
        exact ⟨d, hpf.mem_iff.mpr hd, hdc⟩
      simp only [submit_step, submit_decor, do_sort, check_finished, hfs0,
        Option.map_some', Option.bind_eq_bind, Option.some_bind,
        hdsp] at hstep
      by_cases hb : check_fin sx' fs' eng.xtol eng.ftol = true
      · simp only [hb, if_true, Option.some.injEq, Prod.mk.injEq] at hstep
        obtain ⟨he', hxs⟩ := hstep
        subst he' hxs
        constructor
        · refine ⟨?_, ?_, ?_, ?_, ?_, ?_⟩
          · intro c hc
            simp only [funCosts, Option.getD_some] at hc
            refine mem_mapCosts_left (hA c ?_)
            rw [funCosts, hfs0, Option.getD_some]
            exact hpf.mem_iff.mp hc
          · intro c hc
            simp only [envEntries, List.append_nil] at hc
            obtain ⟨d, hd, hdc⟩ := hLow c (by simpa [mapCosts] using hc)
            rcases lows_cases hd with h1 | h1 | h1
            · rw [funCosts, hfs0, Option.getD_some] at h1
              refine ⟨d, mem_lows_fun ?_, hdc⟩
              simp only [funCosts, Option.getD_some]
              exact hpf.mem_iff.mpr h1
            · rw [hpend] at h1
              simp [pendCosts] at h1
            · exact ⟨d, mem_lows_extra h1, hdc⟩
          · intro c hc
            exact mem_mapCosts_left (hX c hc)
          · intro c hc
            simp [envEntries, pendCosts] at hc
          · intro fs1 h1
            simp only [Option.some.injEq] at h1
            subst h1
            exact hlenf'
          · exact hN'
        · exact ⟨⟨fs', rfl, hsorted⟩,
            fun c hc => by simpa [funCosts] using hExtra' c hc, rfl, rfl⟩
      · rw [Bool.not_eq_true] at hb
        simp only [hb, if_false, Bool.false_eq_true, Option.some.injEq,
          Prod.mk.injEq] at hstep
        obtain ⟨he', hxs⟩ := hstep
        subst he'
        rcases fs with _ | ⟨c0, fs1⟩
        · rw [← hxs] at hlen
          simp at hlen
        · rcases fs1 with _ | ⟨c1, fs2⟩
          · subst hxs
            constructor
            · refine ⟨?_, ?_, ?_, ?_, ?_, ?_⟩
              · intro c hc
                simp only [funCosts, Option.getD_some] at hc
                refine mem_mapCosts_left (hA c ?_)
                rw [funCosts, hfs0, Option.getD_some]
                exact hpf.mem_iff.mp hc
              · intro c hc
                rw [mapCosts_append] at hc
                rcases List.mem_append.mp hc with hc | hc
                · obtain ⟨d, hd, hdc⟩ := hLow c hc
                  rcases lows_cases hd with h1 | h1 | h1
                  · rw [funCosts, hfs0, Option.getD_some] at h1
                    refine ⟨d, mem_lows_fun ?_, hdc⟩
                    simp only [funCosts, Option.getD_some]
                    exact hpf.mem_iff.mpr h1
                  · rw [hpend] at h1
                    simp [pendCosts] at h1
                  · exact ⟨d, mem_lows_extra h1, hdc⟩
                · simp only [envEntries, mapCosts, List.map_cons,
                    List.map_nil, List.mem_cons, List.not_mem_nil,
                    or_false] at hc
                  subst hc
                  refine ⟨c, mem_lows_pend ?_, le_refl c⟩
                  simp [envEntries, pendCosts]
              · intro c hc
                exact mem_mapCosts_left (hX c hc)
              · intro c hc
                simp only [envEntries, pendCosts, List.map_cons,
                  List.map_nil, List.mem_cons, List.not_mem_nil,
                  or_false] at hc
                subst hc
                refine mem_mapCosts_right ?_
                simp [envEntries, mapCosts]
              · intro fs1 h1
                simp only [Option.some.injEq] at h1
                subst h1
                exact hlenf'
              · exact hN'
            · exact ⟨⟨fs', rfl, hsorted⟩,
                fun c hc => by simpa [funCosts] using hExtra' c hc, rfl⟩
          · rw [← hxs] at hlen
            simp at hlen
  | submit_expansion =>
    cases hnu : eng.next_update with
    | some q => rw [hnu] at hP; cases q <;> simp [PhasePred] at hP
    | none =>
      rw [hnu] at hP
      simp only [PhasePred] at hP
      obtain ⟨⟨fsv, xrv, fxrv, hfsv, hsortv, hnev, hexv, hltv⟩, hfin,
        hpend⟩ := hP
      simp only [submit_step, submit_decor, Option.some.injEq,
        Prod.mk.injEq] at hstep
      obtain ⟨he', hxs⟩ := hstep
      subst he'
      rcases fs with _ | ⟨c0, fs1⟩
      · rw [← hxs] at hlen
        simp at hlen
      · rcases fs1 with _ | ⟨c1, fs2⟩
        · subst hxs
          constructor
          · refine ⟨?_, ?_, ?_, ?_, ?_, ?_⟩
            · intro c hc
              exact mem_mapCosts_left (hA c hc)
            · intro c hc
              rw [mapCosts_append] at hc
              rcases List.mem_append.mp hc with hc | hc
              · obtain ⟨d, hd, hdc⟩ := hLow c hc
                rcases lows_cases hd with h1 | h1 | h1
                · exact ⟨d, mem_lows_fun h1, hdc⟩
                · rw [hpend] at h1
                  simp [pendCosts] at h1
                · exact ⟨d, mem_lows_extra h1, hdc⟩
              · rw [mapCosts_pendCosts] at hc
                exact ⟨c, mem_lows_pend hc, le_refl c⟩
            · intro c hc
              exact mem_mapCosts_left (hX c hc)
            · intro c hc
              exact mem_mapCosts_right (by rw [mapCosts_pendCosts]; exact hc)
            · intro fs1 h1
              exact hLen fs1 h1
            · exact hN
          · exact ⟨⟨fsv, xrv, fxrv, hfsv, hsortv, hnev, hexv, hltv⟩, hfin⟩
        · rw [← hxs] at hlen
          simp at hlen
  | submit_contraction =>
    cases hnu : eng.next_update with
    | some q => rw [hnu] at hP; cases q <;> simp [PhasePred] at hP
    | none =>
      rw [hnu] at hP
      simp only [PhasePred] at hP
      obtain ⟨⟨fsv, hfsv, hsortv, hlenv⟩, hEx, hexS, hfin, hpend⟩ := hP
      simp only [submit_step, submit_decor, Option.some.injEq,
        Prod.mk.injEq] at hstep
      obtain ⟨he', hxs⟩ := hstep
      subst he'
      rcases fs with _ | ⟨c0, fs1⟩
      · rw [← hxs] at hlen
        simp at hlen
      · rcases fs1 with _ | ⟨c1, fs2⟩
        · subst hxs
          constructor
          · refine ⟨?_, ?_, ?_, ?_, ?_, ?_⟩
            · intro c hc
              exact mem_mapCosts_left (hA c hc)
            · intro c hc
              rw [mapCosts_append] at hc
              rcases List.mem_append.mp hc with hc | hc
              · obtain ⟨d, hd, hdc⟩ := hLow c hc
                rcases lows_cases hd with h1 | h1 | h1
                · exact ⟨d, mem_lows_fun h1, hdc⟩
                · rw [hpend] at h1
                  simp [pendCosts] at h1
                · exact ⟨d, mem_lows_extra h1, hdc⟩
              · rw [mapCosts_pendCosts] at hc
                exact ⟨c, mem_lows_pend hc, le_refl c⟩
            · intro c hc
              exact mem_mapCosts_left (hX c hc)
            · intro c hc
              exact mem_mapCosts_right (by rw [mapCosts_pendCosts]; exact hc)
            · intro fs1 h1
              exact hLen fs1 h1
            · exact hN
          · exact ⟨⟨fsv, hfsv, hsortv, hlenv⟩, hEx, hexS, hfin⟩
        · rw [← hxs] at hlen
          simp at hlen
  | submit_inside_contraction =>
    cases hnu : eng.next_update with
    | some q => rw [hnu] at hP; cases q <;> simp [PhasePred] at hP
    | none =>
      rw [hnu] at hP
      simp only [PhasePred] at hP
      obtain ⟨⟨fsv, hfsv, hsortv, hlenv⟩, hEx, hfin, hpend⟩ := hP
      simp only [submit_step, submit_decor, Option.some.injEq,
        Prod.mk.injEq] at hstep
      obtain ⟨he', hxs⟩ := hstep
      subst he'
      rcases fs with _ | ⟨c0, fs1⟩
      · rw [← hxs] at hlen
        simp at hlen
      · rcases fs1 with _ | ⟨c1, fs2⟩
        · subst hxs
          constructor
          · refine ⟨?_, ?_, ?_, ?_, ?_, ?_⟩
            · intro c hc
              exact mem_mapCosts_left (hA c hc)
            · intro c hc
              rw [mapCosts_append] at hc
              rcases List.mem_append.mp hc with hc | hc
              · obtain ⟨d, hd, hdc⟩ := hLow c hc
                rcases lows_cases hd with h1 | h1 | h1
                · exact ⟨d, mem_lows_fun h1, hdc⟩
                · rw [hpend] at h1
                  simp [pendCosts] at h1
                · exact ⟨d, mem_lows_extra h1, hdc⟩
              · rw [mapCosts_pendCosts] at hc
                exact ⟨c, mem_lows_pend hc, le_refl c⟩
            · intro c hc
              exact mem_mapCosts_left (hX c hc)
            · intro c hc
              exact mem_mapCosts_right (by rw [mapCosts_pendCosts]; exact hc)
            · intro fs1 h1
              exact hLen fs1 h1
            · exact hN
          · exact ⟨⟨fsv, hfsv, hsortv, hlenv⟩, hEx, hfin⟩
        · rw [← hxs] at hlen
          simp at hlen
  | submit_shrink =>
    cases hnu : eng.next_update with
    | some q => rw [hnu] at hP; cases q <;> simp [PhasePred] at hP
    | none =>
      rw [hnu] at hP
      simp only [PhasePred] at hP
      obtain ⟨⟨fsv, hfsv, hsortv⟩, hEx, hfin, hpend⟩ := hP
      simp only [submit_step, submit_decor, Option.some.injEq,
        Prod.mk.injEq] at hstep
      obtain ⟨he', hxs⟩ := hstep
      subst he' hxs
      have hslen : (eng.simplex.headI ::
          eng.simplex.tail.map (fun v =>
            vecAdd eng.simplex.headI
              (vecSMul SIGMA (vecSub v eng.simplex.headI)))).length
          = eng.simplex.length := by
        simp only [List.length_cons, List.length_map, List.length_tail]
        omega
      constructor
      · refine ⟨?_, ?_, ?_, ?_, ?_, ?_⟩
        · intro c hc
          exact mem_mapCosts_left (hA c hc)
        · intro c hc
          rw [mapCosts_append] at hc
          rcases List.mem_append.mp hc with hc | hc
          · obtain ⟨d, hd, hdc⟩ := hLow c hc
            rcases lows_cases hd with h1 | h1 | h1
            · exact ⟨d, mem_lows_fun h1, hdc⟩
            · rw [hpend] at h1
              simp [pendCosts] at h1
            · exact ⟨d, mem_lows_extra h1, hdc⟩
          · rw [mapCosts_pendCosts] at hc
            exact ⟨c, mem_lows_pend hc, le_refl c⟩
        · intro c hc
          exact mem_mapCosts_left (hX c hc)
        · intro c hc
          exact mem_mapCosts_right (by rw [mapCosts_pendCosts]; exact hc)
        · intro fs1 h1
          rw [hslen]
          exact hLen fs1 h1
        · rw [hslen]
          exact hN
      · exact ⟨⟨fsv, hfsv, hsortv⟩, hEx, hfin⟩
  | update_init => simp [submit_step] at hstep
  | choose_step => simp [submit_step] at hstep
  | update_expansion => simp [submit_step] at hstep
  | update_contraction => simp [submit_step] at hstep
  | update_inside_contraction => simp [submit_step] at hstep
  | update_shrink => simp [submit_step] at hstep
  | finalize => simp [submit_step] at hstep

theorem get_values_length (outs : Outputs) :
    (get_values outs).length = outs.length := by
  simp [get_values]

/-! ## Preservation of the invariant by update steps -/

theorem winv_update (w : World) (p : Phase) (e' : NelderMead) (hI : WInv w)
    (hnu : w.engine.next_update = some p)
    (hstep : update_step p w.pending w.engine = some e') :
    WInv ⟨e', w.mapping, []⟩ := by
  obtain ⟨eng, m, pend⟩ := w
  simp only at hnu hstep ⊢
  obtain ⟨hB, hP⟩ := hI
  unfold PhaseInv at hP
  simp only at hP
  rw [hnu] at hP
  obtain ⟨hA, hLow, hX, hPend, hLen, hN⟩ := hB
  simp only at hA hLow hX hPend hLen hN
  cases hns2 : eng.next_submit with
  | some q =>
    rw [hns2] at hP
    cases p <;> cases q <;> simp [PhasePred] at hP
  | none =>
  rw [hns2] at hP
  cases p with
  | submit_init => simp [update_step] at hstep
  | new_iter => simp [update_step] at hstep
  | submit_expansion => simp [update_step] at hstep
  | submit_contraction => simp [update_step] at hstep
  | submit_inside_contraction => simp [update_step] at hstep
  | submit_shrink => simp [update_step] at hstep
  | update_init =>
    simp only [PhasePred] at hP
    obtain ⟨hfun, hextra, hfin, hplen⟩ := hP
    simp only [update_step, update_decor, Option.some.injEq] at hstep
    subst hstep
    constructor
    · refine ⟨?_, ?_, ?_, ?_, ?_, ?_⟩
      · intro c hc
        simp only [funCosts, Option.getD_some] at hc
        exact hPend c ((get_values_perm pend).mem_iff.mp hc)
      · intro c hc
        obtain ⟨d, hd, hdc⟩ := hLow c hc
        rcases lows_cases hd with h1 | h1 | h1
        · simp [funCosts, hfun] at h1
        · refine ⟨d, mem_lows_fun ?_, hdc⟩
          simp only [funCosts, Option.getD_some]
          exact (get_values_perm pend).mem_iff.mpr h1
        · simp [extraCosts, hextra] at h1
      · intro c hc
        simp [extraCosts, hextra] at hc
      · intro c hc
        simp [pendCosts] at hc
      · intro fs1 h1
        simp only [Option.some.injEq] at h1
        subst h1
        rw [get_values_length]
        exact hplen
      · exact hN
    · refine ⟨rfl, ?_, hfin, rfl⟩
      intro c hc
      simp [extraCosts, hextra] at hc
  | finalize =>
    simp only [PhasePred] at hP
    obtain ⟨⟨fsv, hfsv, hsortv⟩, hEx, hfinT, hpendE⟩ := hP
    simp only [update_step, update_decor, Option.some.injEq] at hstep
    subst hstep
    constructor
    · refine ⟨?_, ?_, ?_, ?_, ?_, ?_⟩
      · intro c hc
        exact hA c hc
      · intro c hc
        obtain ⟨d, hd, hdc⟩ := hLow c hc
        rcases lows_cases hd with h1 | h1 | h1
        · exact ⟨d, mem_lows_fun h1, hdc⟩
        · rw [hpendE] at h1
          simp [pendCosts] at h1
        · exact ⟨d, mem_lows_extra h1, hdc⟩
      · intro c hc
        exact hX c hc
      · intro c hc
        simp [pendCosts] at hc
      · intro fs1 h1
        exact hLen fs1 h1
      · exact hN
    · exact ⟨⟨fsv, hfsv, hsortv⟩, hEx, hfinT, rfl⟩
  | choose_step =>
    simp only [PhasePred] at hP
    obtain ⟨⟨fsv, hfsv, hsortv⟩, hEx, hfin⟩ := hP
    have hf0le : ∀ d ∈ fsv, fsv.headI ≤ d :=
      fun d hd => sorted_headI_le hsortv hd
    rcases pend with _ | ⟨⟨i, xr, fxr⟩, rest⟩
    · simp [update_step, get_single_result] at hstep
    rcases rest with _ | ⟨e2, rest2⟩
    swap
    · simp [update_step, get_single_result] at hstep
    have hfxr_pend : fxr ∈ pendCosts [(i, (xr, fxr))] := by simp [pendCosts]
    have hfxr_m : fxr ∈ mapCosts m := hPend fxr hfxr_pend
    simp only [update_step, update_decor, get_single_result,
      Option.bind_eq_bind, Option.some_bind, hfsv] at hstep
    by_cases hb1 : fxr < fsv.headI
    · rw [if_pos hb1] at hstep
      by_cases hz : fsv.length = 0
      · rw [if_pos hz] at hstep
        exact absurd hstep (by simp)
      · rw [if_neg hz] at hstep
        have hstep' := Option.some.inj hstep
        subst hstep'
        have hnev : fsv ≠ [] := by
          intro h
          exact hz (by simp [h])
        constructor
        · refine ⟨?_, ?_, ?_, ?_, ?_, ?_⟩
          · intro c hc
            exact hA c (by simpa [funCosts, hfsv] using hc)
          · intro c hc
            obtain ⟨d, hd, hdc⟩ := hLow c hc
            rcases lows_cases hd with h1 | h1 | h1
            · exact ⟨d, mem_lows_fun
                (by simpa [funCosts, hfsv] using h1), hdc⟩
            · simp only [pendCosts, List.map_cons, List.map_nil,
                List.mem_cons, List.not_mem_nil, or_false] at h1
              subst h1
              refine ⟨d, mem_lows_extra ?_, hdc⟩
              simp [extraCosts]
            · obtain ⟨d2, hd2, hd2d⟩ := hEx d h1
              exact ⟨d2, mem_lows_fun
                (by simpa [funCosts, hfsv] using hd2), le_trans hd2d hdc⟩
          · intro c hc
            simp only [extraCosts, List.mem_cons, List.not_mem_nil,
              or_false] at hc
            subst hc
            exact hfxr_m
          · intro c hc
            simp [pendCosts] at hc
          · intro fs1 h1
            simp only [Option.some.injEq] at h1
            subst h1
            exact hLen fsv hfsv
          · exact hN
        · exact ⟨⟨fsv, xr, fxr, rfl, hsortv, hnev, rfl, hb1⟩, hfin, rfl⟩
    · rw [if_neg hb1] at hstep
      by_cases h2 : fsv.length < 2
      · rw [if_pos h2] at hstep
        exact absurd hstep (by simp)
      · rw [if_neg h2] at hstep
        have h2' : 2 ≤ fsv.length := by omega
        have hnev : fsv ≠ [] := by
          intro h
          rw [h] at h2'
          simp at h2'
        by_cases hb2 : fxr < fsv.getD (fsv.length - 2) 0
        · rw [if_pos hb2] at hstep
          simp only [update_last, Option.some.injEq] at hstep
          subst hstep
          have hfxr_mem_set : fxr ∈ fsv.set (fsv.length - 1) fxr :=
            mem_set_self (by omega) fxr
          have hf0_mem_set : fsv.headI ∈ fsv.set (fsv.length - 1) fxr :=
            headI_mem_set (by omega) hnev fxr
          constructor
          · refine ⟨?_, ?_, ?_, ?_, ?_, ?_⟩
            · intro c hc
              simp only [funCosts, Option.getD_some] at hc
              rcases List.mem_or_eq_of_mem_set hc with h1 | h1
              · exact hA c (by simpa [funCosts, hfsv] using h1)
              · subst h1
                exact hfxr_m
            · intro c hc
              obtain ⟨d, hd, hdc⟩ := hLow c hc
              rcases lows_cases hd with h1 | h1 | h1
              · rw [funCosts, hfsv, Option.getD_some] at h1
                refine ⟨fsv.headI, mem_lows_fun ?_,
                  le_trans (hf0le d h1) hdc⟩
                simpa [funCosts] using hf0_mem_set
              · simp only [pendCosts, List.map_cons, List.map_nil,
                  List.mem_cons, List.not_mem_nil, or_false] at h1
                subst h1
                refine ⟨d, mem_lows_fun ?_, hdc⟩
                simpa [funCosts] using hfxr_mem_set
              · obtain ⟨d2, hd2, hd2d⟩ := hEx d h1
                rw [funCosts, hfsv, Option.getD_some] at hd2
                refine ⟨fsv.headI, mem_lows_fun ?_,
                  le_trans (hf0le d2 hd2) (le_trans hd2d hdc)⟩
                simpa [funCosts] using hf0_mem_set
            · intro c hc
              simp only [extraCosts, List.mem_cons, List.not_mem_nil,
                or_false] at hc
              subst hc
              exact hfxr_m
            · intro c hc
              simp [pendCosts] at hc
            · intro fs1 h1
              simp only [Option.some.injEq] at h1
              subst h1
              simp only [List.length_set]
              exact hLen fsv hfsv
            · simpa using hN
          · refine ⟨by simp, ?_, hfin, rfl⟩
            intro c hc
            simp only [extraCosts, List.mem_cons, List.not_mem_nil,
              or_false] at hc
            rw [hc]
            exact ⟨fxr, by simpa [funCosts] using hfxr_mem_set, le_refl fxr⟩
        · rw [if_neg hb2] at hstep
          have hgele : fsv.getD (fsv.length - 2) 0 ≤ fxr := le_of_not_lt hb2
          have hgemem : fsv.getD (fsv.length - 2) 0 ∈ fsv :=
            getD_mem (by omega)
          by_cases hb3 : fxr < fsv.getLastD 0
          · rw [if_pos hb3] at hstep
            have hstep' := Option.some.inj hstep
            subst hstep'
            constructor
            · refine ⟨?_, ?_, ?_, ?_, ?_, ?_⟩
              · intro c hc
                exact hA c (by simpa [funCosts, hfsv] using hc)
              · intro c hc
                obtain ⟨d, hd, hdc⟩ := hLow c hc
                rcases lows_cases hd with h1 | h1 | h1
                · exact ⟨d, mem_lows_fun
                    (by simpa [funCosts, hfsv] using h1), hdc⟩
                · simp only [pendCosts, List.map_cons, List.map_nil,
                    List.mem_cons, List.not_mem_nil, or_false] at h1
                  subst h1
                  refine ⟨d, mem_lows_extra ?_, hdc⟩
                  simp [extraCosts]
                · obtain ⟨d2, hd2, hd2d⟩ := hEx d h1
                  exact ⟨d2, mem_lows_fun
                    (by simpa [funCosts, hfsv] using hd2),
                    le_trans hd2d hdc⟩
              · intro c hc
                simp only [extraCosts, List.mem_cons, List.not_mem_nil,
                  or_false] at hc
                subst hc
                exact hfxr_m
              · intro c hc
                simp [pendCosts] at hc
              · intro fs1 h1
                simp only [Option.some.injEq] at h1
                subst h1
                exact hLen fsv hfsv
              · exact hN
            · refine ⟨⟨fsv, rfl, hsortv, h2'⟩, ?_, by simp, hfin, rfl⟩
              intro c hc
              simp only [extraCosts, List.mem_cons, List.not_mem_nil,
                or_false] at hc
              subst hc
              exact ⟨fsv.getD (fsv.length - 2) 0,
                by simpa [funCosts, hfsv] using hgemem, hgele⟩
          · rw [if_neg hb3] at hstep
            have hstep' := Option.some.inj hstep
            subst hstep'
            constructor
            · refine ⟨?_, ?_, ?_, ?_, ?_, ?_⟩
              · intro c hc
                exact hA c (by simpa [funCosts, hfsv] using hc)
              · intro c hc
                obtain ⟨d, hd, hdc⟩ := hLow c hc
                rcases lows_cases hd with h1 | h1 | h1
                · exact ⟨d, mem_lows_fun
                    (by simpa [funCosts, hfsv] using h1), hdc⟩
                · simp only [pendCosts, List.map_cons, List.map_nil,
                    List.mem_cons, List.not_mem_nil, or_false] at h1
                  subst h1
                  refine ⟨d, mem_lows_extra ?_, hdc⟩
                  simp [extraCosts]
                · obtain ⟨d2, hd2, hd2d⟩ := hEx d h1
                  exact ⟨d2, mem_lows_fun
                    (by simpa [funCosts, hfsv] using hd2),
                    le_trans hd2d hdc⟩
              · intro c hc
                simp only [extraCosts, List.mem_cons, List.not_mem_nil,
                  or_false] at hc
                subst hc
                exact hfxr_m
              · intro c hc
                simp [pendCosts] at hc
              · intro fs1 h1
                simp only [Option.some.injEq] at h1
                subst h1
                exact hLen fsv hfsv
              · exact hN
            · refine ⟨⟨fsv, rfl, hsortv, h2'⟩, ?_, hfin, rfl⟩
              intro c hc
              simp only [extraCosts, List.mem_cons, List.not_mem_nil,
                or_false] at hc
              subst hc
              exact ⟨fsv.getD (fsv.length - 2) 0,
                by simpa [funCosts, hfsv] using hgemem, hgele⟩
  | update_expansion =>
    simp only [PhasePred] at hP
    obtain ⟨⟨fsv, xrv, fxrv, hfsv, hsortv, hnev, hexv, hltv⟩, hfin⟩ := hP
    have hf0le : ∀ d ∈ fsv, fsv.headI ≤ d :=
      fun d hd => sorted_headI_le hsortv hd
    rcases pend with _ | ⟨⟨i, xe, fxe⟩, rest⟩
    · simp [update_step, get_single_result] at hstep
    rcases rest with _ | ⟨e2, rest2⟩
    swap
    · simp [update_step, get_single_result] at hstep
    have hfxe_m : fxe ∈ mapCosts m := hPend fxe (by simp [pendCosts])
    have hfxrv_m : fxrv ∈ mapCosts m := hX fxrv (by simp [extraCosts, hexv])
    by_cases hcmp : fxe < fxrv
    · simp only [update_step, update_decor, get_single_result,
        Option.bind_eq_bind, Option.some_bind, hfsv, hexv, update_last,
        if_pos hcmp, Option.some.injEq] at hstep
      subst hstep
      have hlpos : 0 < fsv.length := List.length_pos.mpr hnev
      have hval_lt_f0 : fxe < fsv.headI := lt_of_le_of_lt (le_of_lt hcmp) hltv
      have hval_mem_set : fxe ∈ fsv.set (fsv.length - 1) fxe :=
        mem_set_self (by omega) fxe
      constructor
      · refine ⟨?_, ?_, ?_, ?_, ?_, ?_⟩
        · intro c hc
          simp only [funCosts, Option.getD_some] at hc
          rcases List.mem_or_eq_of_mem_set hc with h1 | h1
          · exact hA c (by simpa [funCosts, hfsv] using h1)
          · subst h1
            exact hfxe_m
        · intro c hc
          obtain ⟨d, hd, hdc⟩ := hLow c hc
          rcases lows_cases hd with h1 | h1 | h1
          · rw [funCosts, hfsv, Option.getD_some] at h1
            refine ⟨fxe, mem_lows_fun (by simpa [funCosts] using hval_mem_set),
              le_trans (le_of_lt (lt_of_lt_of_le hval_lt_f0 (hf0le d h1))) hdc⟩
          · simp only [pendCosts, List.map_cons, List.map_nil,
              List.mem_cons, List.not_mem_nil, or_false] at h1
            rw [h1] at hdc
            exact ⟨fxe, mem_lows_fun (by simpa [funCosts] using hval_mem_set),
              le_trans (le_refl fxe) hdc⟩
          · simp only [extraCosts, hexv, List.mem_cons, List.not_mem_nil,
              or_false] at h1
            rw [h1] at hdc
            exact ⟨fxe, mem_lows_fun (by simpa [funCosts] using hval_mem_set),
              le_trans (le_of_lt hcmp) hdc⟩
        · intro c hc
          simp only [extraCosts, List.mem_cons, List.not_mem_nil,
            or_false] at hc
          rw [hc]
          exact hfxrv_m
        · intro c hc
          simp [pendCosts] at hc
        · intro fs1 h1
          simp only [Option.some.injEq] at h1
          subst h1
          simp only [List.length_set]
          exact hLen fsv hfsv
        · simpa using hN
      · refine ⟨by simp, ?_, hfin, rfl⟩
        intro c hc
        simp only [extraCosts, List.mem_cons, List.not_mem_nil,
          or_false] at hc
        rw [hc]
        exact ⟨fxe, by simpa [funCosts] using hval_mem_set, (le_of_lt hcmp)⟩
    · simp only [update_step, update_decor, get_single_result,
        Option.bind_eq_bind, Option.some_bind, hfsv, hexv, update_last,
        if_neg hcmp, Option.some.injEq] at hstep
      subst hstep
      have hlpos : 0 < fsv.length := List.length_pos.mpr hnev
      have hval_lt_f0 : fxrv < fsv.headI := lt_of_le_of_lt (le_refl fxrv) hltv
      have hval_mem_set : fxrv ∈ fsv.set (fsv.length - 1) fxrv :=
        mem_set_self (by omega) fxrv
      constructor
      · refine ⟨?_, ?_, ?_, ?_, ?_, ?_⟩
        · intro c hc
          simp only [funCosts, Option.getD_some] at hc
          rcases List.mem_or_eq_of_mem_set hc with h1 | h1
          · exact hA c (by simpa [funCosts, hfsv] using h1)
          · subst h1
            exact hfxrv_m
        · intro c hc
          obtain ⟨d, hd, hdc⟩ := hLow c hc
          rcases lows_cases hd with h1 | h1 | h1
          · rw [funCosts, hfsv, Option.getD_some] at h1
            refine ⟨fxrv, mem_lows_fun (by simpa [funCosts] using hval_mem_set),
              le_trans (le_of_lt (lt_of_lt_of_le hval_lt_f0 (hf0le d h1))) hdc⟩
          · simp only [pendCosts, List.map_cons, List.map_nil,
              List.mem_cons, List.not_mem_nil, or_false] at h1
            rw [h1] at hdc
            exact ⟨fxrv, mem_lows_fun (by simpa [funCosts] using hval_mem_set),
              le_trans (le_of_not_lt hcmp) hdc⟩
          · simp only [extraCosts, hexv, List.mem_cons, List.not_mem_nil,
              or_false] at h1
            rw [h1] at hdc
            exact ⟨fxrv, mem_lows_fun (by simpa [funCosts] using hval_mem_set),
              le_trans (le_refl fxrv) hdc⟩
        · intro c hc
          simp only [extraCosts, List.mem_cons, List.not_mem_nil,
            or_false] at hc
          rw [hc]
          exact hfxrv_m
        · intro c hc
          simp [pendCosts] at hc
        · intro fs1 h1
          simp only [Option.some.injEq] at h1
          subst h1
          simp only [List.length_set]
          exact hLen fsv hfsv
        · simpa using hN
      · refine ⟨by simp, ?_, hfin, rfl⟩
        intro c hc
        simp only [extraCosts, List.mem_cons, List.not_mem_nil,
          or_false] at hc
        rw [hc]
        exact ⟨fxrv, by simpa [funCosts] using hval_mem_set, (le_refl fxrv)⟩
  | update_contraction =>
    simp only [PhasePred] at hP
    obtain ⟨⟨fsv, hfsv, hsortv, hlen2v⟩, hEx, hexS, hfin⟩ := hP
    obtain ⟨⟨xrv, fxrv⟩, hexv⟩ := Option.isSome_iff_exists.mp hexS
    have hf0le : ∀ d ∈ fsv, fsv.headI ≤ d :=
      fun d hd => sorted_headI_le hsortv hd
    have hnev : fsv ≠ [] := by
      intro h
      rw [h] at hlen2v
      simp at hlen2v
    rcases pend with _ | ⟨⟨i, xc, fxc⟩, rest⟩
    · simp [update_step, get_single_result] at hstep
    rcases rest with _ | ⟨e2, rest2⟩
    swap
    · simp [update_step, get_single_result] at hstep
    have hfxc_m : fxc ∈ mapCosts m := hPend fxc (by simp [pendCosts])
    have hfxrv_m : fxrv ∈ mapCosts m := hX fxrv (by simp [extraCosts, hexv])
    simp only [update_step, update_decor, get_single_result,
      Option.bind_eq_bind, Option.some_bind, hfsv, hexv] at hstep
    by_cases hcmp : fxc < fxrv
    · rw [if_pos hcmp] at hstep
      simp only [update_last, Option.some.injEq] at hstep
      subst hstep
      have hfxc_mem_set : fxc ∈ fsv.set (fsv.length - 1) fxc :=
        mem_set_self (by omega) fxc
      have hf0_mem_set : fsv.headI ∈ fsv.set (fsv.length - 1) fxc :=
        headI_mem_set (by omega) hnev fxc
      constructor
      · refine ⟨?_, ?_, ?_, ?_, ?_, ?_⟩
        · intro c hc
          simp only [funCosts, Option.getD_some] at hc
          rcases List.mem_or_eq_of_mem_set hc with h1 | h1
          · exact hA c (by simpa [funCosts, hfsv] using h1)
          · subst h1
            exact hfxc_m
        · intro c hc
          obtain ⟨d, hd, hdc⟩ := hLow c hc
          rcases lows_cases hd with h1 | h1 | h1
          · rw [funCosts, hfsv, Option.getD_some] at h1
            exact ⟨fsv.headI,
              mem_lows_fun (by simpa [funCosts] using hf0_mem_set),
              le_trans (hf0le d h1) hdc⟩
          · simp only [pendCosts, List.map_cons, List.map_nil,
              List.mem_cons, List.not_mem_nil, or_false] at h1
            rw [h1] at hdc
            exact ⟨fxc,
              mem_lows_fun (by simpa [funCosts] using hfxc_mem_set), hdc⟩
          · simp only [extraCosts, hexv, List.mem_cons, List.not_mem_nil,
              or_false] at h1
            rw [h1] at hdc
            refine ⟨fxrv, mem_lows_extra ?_, hdc⟩
            simp [extraCosts]
        · intro c hc
          simp only [extraCosts, List.mem_cons, List.not_mem_nil,
            or_false] at hc
          rw [hc]
          exact hfxrv_m
        · intro c hc
          simp [pendCosts] at hc
        · intro fs1 h1
          simp only [Option.some.injEq] at h1
          subst h1
          simp only [List.length_set]
          exact hLen fsv hfsv
        · simpa using hN
      · refine ⟨by simp, ?_, hfin, rfl⟩
        intro c hc
        simp only [extraCosts, List.mem_cons, List.not_mem_nil,
          or_false] at hc
        rw [hc]
        exact ⟨fxc, by simpa [funCosts] using hfxc_mem_set, le_of_lt hcmp⟩
    · rw [if_neg hcmp] at hstep
      have hstep' := Option.some.inj hstep
      subst hstep'
      constructor
      · refine ⟨?_, ?_, ?_, ?_, ?_, ?_⟩
        · intro c hc
          exact hA c (by simpa [funCosts, hfsv] using hc)
        · intro c hc
          obtain ⟨d, hd, hdc⟩ := hLow c hc
          rcases lows_cases hd with h1 | h1 | h1
          · exact ⟨d, mem_lows_fun
              (by simpa [funCosts, hfsv] using h1), hdc⟩
          · simp only [pendCosts, List.map_cons, List.map_nil,
              List.mem_cons, List.not_mem_nil, or_false] at h1
            rw [h1] at hdc
            refine ⟨fxrv, mem_lows_extra ?_,
              le_trans (le_of_not_lt hcmp) hdc⟩
            simp [extraCosts]
          · simp only [extraCosts, hexv, List.mem_cons, List.not_mem_nil,
              or_false] at h1
            rw [h1] at hdc
            refine ⟨fxrv, mem_lows_extra ?_, hdc⟩
            simp [extraCosts]
        · intro c hc
          simp only [extraCosts, List.mem_cons, List.not_mem_nil,
            or_false] at hc
          rw [hc]
          exact hfxrv_m
        · intro c hc
          simp [pendCosts] at hc
        · intro fs1 h1
          simp only [Option.some.injEq] at h1
          subst h1
          exact hLen fsv hfsv
        · exact hN
      · refine ⟨⟨fsv, rfl, hsortv⟩, ?_, hfin, rfl⟩
        intro c hc
        simp only [extraCosts, List.mem_cons, List.not_mem_nil,
          or_false] at hc
        obtain ⟨d2, hd2, hd2c⟩ := hEx c (by simp [extraCosts, hexv, hc])
        exact ⟨d2, by simpa [funCosts, hfsv] using hd2, hd2c⟩
  | update_inside_contraction =>
    simp only [PhasePred] at hP
    obtain ⟨⟨fsv, hfsv, hsortv, hlen2v⟩, hEx, hfin⟩ := hP
    have hf0le : ∀ d ∈ fsv, fsv.headI ≤ d :=
      fun d hd => sorted_headI_le hsortv hd
    have hnev : fsv ≠ [] := by
      intro h
      rw [h] at hlen2v
      simp at hlen2v
    have hz0 : ¬ fsv.length = 0 := by
      intro h
      omega
    rcases pend with _ | ⟨⟨i, xcc, fxcc⟩, rest⟩
    · simp [update_step, get_single_result] at hstep
    rcases rest with _ | ⟨e2, rest2⟩
    swap
    · simp [update_step, get_single_result] at hstep
    have hfxcc_m : fxcc ∈ mapCosts m := hPend fxcc (by simp [pendCosts])
    simp only [update_step, update_decor, get_single_result,
      Option.bind_eq_bind, Option.some_bind, hfsv] at hstep
    rw [if_neg hz0] at hstep
    by_cases hcmp : fxcc < fsv.getLastD 0
    · rw [if_pos hcmp] at hstep
      simp only [update_last, Option.some.injEq] at hstep
      subst hstep
      have hfxcc_mem_set : fxcc ∈ fsv.set (fsv.length - 1) fxcc :=
        mem_set_self (by omega) fxcc
      have hf0_mem_set : fsv.headI ∈ fsv.set (fsv.length - 1) fxcc :=
        headI_mem_set (by omega) hnev fxcc
      constructor
      · refine ⟨?_, ?_, ?_, ?_, ?_, ?_⟩
        · intro c hc
          simp only [funCosts, Option.getD_some] at hc
          rcases List.mem_or_eq_of_mem_set hc with h1 | h1
          · exact hA c (by simpa [funCosts, hfsv] using h1)
          · subst h1
            exact hfxcc_m
        · intro c hc
          obtain ⟨d, hd, hdc⟩ := hLow c hc
          rcases lows_cases hd with h1 | h1 | h1
          · rw [funCosts, hfsv, Option.getD_some] at h1
            exact ⟨fsv.headI,
              mem_lows_fun (by simpa [funCosts] using hf0_mem_set),
              le_trans (hf0le d h1) hdc⟩
          · simp only [pendCosts, List.map_cons, List.map_nil,
              List.mem_cons, List.not_mem_nil, or_false] at h1
            rw [h1] at hdc
            exact ⟨fxcc,
              mem_lows_fun (by simpa [funCosts] using hfxcc_mem_set), hdc⟩
          · obtain ⟨d2, hd2, hd2d⟩ := hEx d h1
            rw [funCosts, hfsv, Option.getD_some] at hd2
            exact ⟨fsv.headI,
              mem_lows_fun (by simpa [funCosts] using hf0_mem_set),
              le_trans (hf0le d2 hd2) (le_trans hd2d hdc)⟩
        · intro c hc
          exact hX c hc
        · intro c hc
          simp [pendCosts] at hc
        · intro fs1 h1
          simp only [Option.some.injEq] at h1
          subst h1
          simp only [List.length_set]
          exact hLen fsv hfsv
        · simpa using hN
      · refine ⟨by simp, ?_, hfin, rfl⟩
        intro c hc
        obtain ⟨d2, hd2, hd2c⟩ := hEx c hc
        rw [funCosts, hfsv, Option.getD_some] at hd2
        exact ⟨fsv.headI, by simpa [funCosts] using hf0_mem_set,
          le_trans (hf0le d2 hd2) hd2c⟩
    · rw [if_neg hcmp] at hstep
      have hstep' := Option.some.inj hstep
      subst hstep'
      have hlastmem : fsv.getLastD 0 ∈ fsv := getLastD_mem hnev
      constructor
      · refine ⟨?_, ?_, ?_, ?_, ?_, ?_⟩
        · intro c hc
          exact hA c (by simpa [funCosts, hfsv] using hc)
        · intro c hc
          obtain ⟨d, hd, hdc⟩ := hLow c hc
          rcases lows_cases hd with h1 | h1 | h1
          · exact ⟨d, mem_lows_fun
              (by simpa [funCosts, hfsv] using h1), hdc⟩
          · simp only [pendCosts, List.map_cons, List.map_nil,
              List.mem_cons, List.not_mem_nil, or_false] at h1
            rw [h1] at hdc
            exact ⟨fsv.getLastD 0, mem_lows_fun
              (by simpa [funCosts, hfsv] using hlastmem),
              le_trans (le_of_not_lt hcmp) hdc⟩
          · obtain ⟨d2, hd2, hd2d⟩ := hEx d h1
            exact ⟨d2, mem_lows_fun
              (by simpa [funCosts, hfsv] using hd2),
              le_trans hd2d hdc⟩
        · intro c hc
          exact hX c hc
        · intro c hc
          simp [pendCosts] at hc
        · intro fs1 h1
          simp only [Option.some.injEq] at h1
          subst h1
          exact hLen fsv hfsv
        · exact hN
      · refine ⟨⟨fsv, rfl, hsortv⟩, ?_, hfin, rfl⟩
        intro c hc
        obtain ⟨d2, hd2, hd2c⟩ := hEx c hc
        exact ⟨d2, by simpa [funCosts, hfsv] using hd2, hd2c⟩
  | update_shrink =>
    simp only [PhasePred] at hP
    obtain ⟨⟨fsv, hfsv, hsortv⟩, hEx, hfin⟩ := hP
    have hf0le : ∀ d ∈ fsv, fsv.headI ≤ d :=
      fun d hd => sorted_headI_le hsortv hd
    simp only [update_step, update_decor, Option.bind_eq_bind,
      Option.some_bind, hfsv] at hstep
    by_cases hg : pend.length + 1 = fsv.length
    · rw [if_pos hg] at hstep
      have hstep' := Option.some.inj hstep
      subst hstep'
      rcases fsv with _ | ⟨f0, fsrest⟩
      · simp at hg
      have hfun' : (f0 :: fsrest).take 1 ++ get_values pend
          = f0 :: get_values pend := by simp
      have hf0mem : f0 ∈ (f0 :: fsrest).take 1 ++ get_values pend := by
        rw [hfun']
        exact List.mem_cons_self _ _
      constructor
      · refine ⟨?_, ?_, ?_, ?_, ?_, ?_⟩
        · intro c hc
          simp only [funCosts, Option.getD_some, hfun', List.mem_cons] at hc
          rcases hc with h1 | h1
          · subst h1
            exact hA c (by simp [funCosts, hfsv])
          · exact hPend c ((get_values_perm pend).mem_iff.mp h1)
        · intro c hc
          obtain ⟨d, hd, hdc⟩ := hLow c hc
          rcases lows_cases hd with h1 | h1 | h1
          · rw [funCosts, hfsv, Option.getD_some] at h1
            refine ⟨f0, mem_lows_fun (by simpa [funCosts] using hf0mem), ?_⟩
            exact le_trans (by simpa using hf0le d h1) hdc
          · refine ⟨d, mem_lows_fun ?_, hdc⟩
            simp only [funCosts, Option.getD_some, hfun', List.mem_cons]
            exact Or.inr ((get_values_perm pend).mem_iff.mpr h1)
          · obtain ⟨d2, hd2, hd2d⟩ := hEx d h1
            rw [funCosts, hfsv, Option.getD_some] at hd2
            refine ⟨f0, mem_lows_fun (by simpa [funCosts] using hf0mem), ?_⟩
            exact le_trans (by simpa using hf0le d2 hd2)
              (le_trans hd2d hdc)
        · intro c hc
          exact hX c hc
        · intro c hc
          simp [pendCosts] at hc
        · intro fs1 h1
          simp only [Option.some.injEq] at h1
          subst h1
          have hsl := hLen (f0 :: fsrest) hfsv
          rw [List.length_append, get_values_length]
          simp only [List.length_take, List.length_cons] at hsl hg ⊢
          omega
        · exact hN
      · refine ⟨by simp, ?_, hfin, rfl⟩
        intro c hc
        obtain ⟨d2, hd2, hd2c⟩ := hEx c hc
        rw [funCosts, hfsv, Option.getD_some] at hd2
        refine ⟨f0, by simpa [funCosts] using hf0mem, ?_⟩
        exact le_trans (by simpa using hf0le d2 hd2) hd2c
    · rw [if_neg hg] at hstep
      exact absurd hstep (by simp)

/-! ## The invariant holds for every reachable world -/

theorem winv_fresh (simplex : List Vec) (xtol ftol : ℚ) (max_iter : ℕ)
    (e : NelderMead)
    (h : nm_start simplex xtol ftol max_iter = some e) :
    WInv ⟨e, [], []⟩ := by
  simp only [nm_start, nm_new] at h
  by_cases hok : simplex_ok simplex = true
  · rw [if_pos hok] at h
    have he := Option.some.inj h
    subst he
    have hlen : simplex.length = simplex.headI.length + 1 := by
      simp only [simplex_ok, Bool.and_eq_true, decide_eq_true_iff,
        List.all_eq_true] at hok
      exact hok.1
    constructor
    · refine ⟨?_, ?_, ?_, ?_, ?_, ?_⟩
      · intro c hc
        simp [funCosts] at hc
      · intro c hc
        simp [mapCosts] at hc
      · intro c hc
        simp [extraCosts] at hc
      · intro c hc
        simp [pendCosts] at hc
      · intro fs h1
        simp at h1
      · simp only
        omega
    · exact ⟨rfl, rfl, rfl, rfl⟩
  · rw [if_neg hok] at h
    cases h

theorem reach_winv (w : World) (h : Reach w) : WInv w := by
  induction h with
  | fresh simplex xtol ftol max_iter e he =>
    exact winv_fresh simplex xtol ftol max_iter e he
  | submit w p e' xs fs hr hns hstep hlen ih =>
    exact winv_submit w p e' xs fs ih hns hstep hlen
  | update w p e' hr hnu hstep ih =>
    exact winv_update w p e' ih hnu hstep

/-! ## Concrete reachable trace to a finished, finalized state -/

set_option maxRecDepth 10000 in
theorem reach_W0 : Reach W0 :=
  Reach.fresh [[0], [0]] 1 1 1000 E0 (by with_unfolding_all decide)

set_option maxRecDepth 10000 in
theorem reach_W1 : Reach W1 :=
  Reach.submit W0 .submit_init E1 X1 [0, 0] reach_W0 rfl
    (by with_unfolding_all decide) (by decide)

set_option maxRecDepth 10000 in
theorem reach_W2 : Reach W2 :=
  Reach.update W1 .update_init E2 reach_W1 rfl
    (by with_unfolding_all decide)

set_option maxRecDepth 10000 in
theorem reach_W3 : Reach W3 :=
  Reach.submit W2 .new_iter E3 [] [] reach_W2 rfl
    (by with_unfolding_all decide) rfl

set_option maxRecDepth 10000 in
theorem reach_W4 : Reach W4 :=
  Reach.update W3 .finalize E4 reach_W3 rfl
    (by with_unfolding_all decide)

/-! ## Claim C2 (corrected) -/

/-- Counterexample to C2 as stated: after the `finalize` phase runs, BOTH
phase pointers are null (the `update_method()` wrapper sets `next_submit`
to its `None` default and clears `next_update`, and `finalize`'s body sets
nothing), so "exactly one of the two is non-null ... including after the
finalize phase runs" fails on the reachable world `W4`. -/
theorem finalize_clears_both_pointers :
    Reach W4 ∧ W4.engine.next_submit = none ∧
      W4.engine.next_update = none :=
  ⟨reach_W4, rfl, rfl⟩

/-- Claim C2 (amended): in every reachable world, exactly one of
`next_submit` / `next_update` is non-null — except after the terminal
`finalize` update, which clears the update pointer and sets no submit
pointer, leaving both null with the finished flag set. -/
theorem reach_pointer_protocol (w : World) (h : Reach w) :
    (∃ p, w.engine.next_submit = some p ∧ w.engine.next_update = none) ∨
    (∃ p, w.engine.next_submit = none ∧ w.engine.next_update = some p) ∨
    (w.engine.next_submit = none ∧ w.engine.next_update = none ∧
      w.engine.finished = true) := by
  obtain ⟨_, hP⟩ := reach_winv w h
  unfold PhaseInv at hP
  cases hns : w.engine.next_submit with
  | some p =>
    cases hnu : w.engine.next_update with
    | none => exact Or.inl ⟨p, rfl, rfl⟩
    | some q =>
      rw [hns, hnu] at hP
      cases p <;> cases q <;> simp [PhasePred] at hP
  | none =>
    cases hnu : w.engine.next_update with
    | some q => exact Or.inr (Or.inl ⟨q, rfl, rfl⟩)
    | none =>
      rw [hns, hnu] at hP
      exact Or.inr (Or.inr ⟨rfl, rfl, hP.2.2.1⟩)

/-- Witness for the amended C2 at the concrete reachable world `W2`. -/
theorem reach_pointer_protocol_witness :
    (∃ p, W2.engine.next_submit = some p ∧ W2.engine.next_update = none) ∨
    (∃ p, W2.engine.next_submit = none ∧ W2.engine.next_update = some p) ∨
    (W2.engine.next_submit = none ∧ W2.engine.next_update = none ∧
      W2.engine.finished = true) :=
  reach_pointer_protocol W2 reach_W2

/-! ## Claim C10 -/

/-- In a terminal world satisfying the invariant clauses, the best cost in
the result mapping is the head of the sorted value vector, so the
`result_value` assertion passes. -/
theorem terminal_result_value (w : World)
    (hA : ∀ c ∈ funCosts w.engine, c ∈ mapCosts w.mapping)
    (hLow : ∀ c ∈ mapCosts w.mapping, ∃ d ∈ lows w, d ≤ c)
    (hLen : ∀ fs, w.engine.fun_simplex = some fs →
      fs.length = w.engine.simplex.length)
    (hN : 1 ≤ w.engine.simplex.length)
    (fs : List ℚ) (hfs : w.engine.fun_simplex = some fs)
    (hsort : List.Sorted (· ≤ ·) fs) (hEx : ExtraLB w.engine)
    (hpendE : w.pending = []) :
    ∃ c, w.engine.fun_simplex.map List.headI = some c ∧
      result_value w.engine w.mapping = some c ∧
      (∀ e ∈ w.mapping, c ≤ e.2.2) := by
  have hne : fs ≠ [] := by
    intro h
    have := hLen fs hfs
    rw [h] at this
    simp at this
    omega
  have hf0fun : fs.headI ∈ funCosts w.engine := by
    rw [funCosts, hfs, Option.getD_some]
    exact headI_mem hne
  have hf0m : fs.headI ∈ mapCosts w.mapping := hA _ hf0fun
  have hlb : ∀ c ∈ mapCosts w.mapping, fs.headI ≤ c := by
    intro c hc
    obtain ⟨d, hd, hdc⟩ := hLow c hc
    rcases lows_cases hd with h1 | h1 | h1
    · rw [funCosts, hfs, Option.getD_some] at h1
      exact le_trans (sorted_headI_le hsort h1) hdc
    · rw [hpendE] at h1
      simp [pendCosts] at h1
    · obtain ⟨d2, hd2, hd2d⟩ := hEx d h1
      rw [funCosts, hfs, Option.getD_some] at hd2
      exact le_trans (sorted_headI_le hsort hd2)
        (le_trans hd2d hdc)
  obtain ⟨entry, hentry, hecost⟩ := List.mem_map.mp hf0m
  rcases hm : w.mapping with _ | ⟨x, xs⟩
  · rw [hm] at hentry
    cases hentry
  have hropt : get_optimal_result (x :: xs) = some
      (xs.foldl (fun best item => if item.2.2 < best.2.2 then item else best)
        x) := rfl
  set r := xs.foldl (fun best item => if item.2.2 < best.2.2 then item
    else best) x with hr
  have hmem : r ∈ x :: xs := by
    rcases min_scan_mem xs x with h1 | h1
    · rw [hr, h1]
      exact List.mem_cons_self x xs
    · exact List.mem_cons_of_mem x h1
  have hrle : ∀ e ∈ x :: xs, r.2.2 ≤ e.2.2 := by
    intro e he
    rcases List.mem_cons.mp he with h1 | h1
    · exact h1 ▸ (min_scan_le xs x).1
    · exact (min_scan_le xs x).2 e h1
  have hrval : r.2.2 = fs.headI := by
    refine le_antisymm ?_ ?_
    · rw [← hecost]
      exact hrle entry (hm ▸ hentry)
    · refine hlb r.2.2 ?_
      rw [← hm] at hmem
      exact List.mem_map.mpr ⟨r, hmem, rfl⟩
  refine ⟨fs.headI, by rw [hfs]; rfl, ?_, ?_⟩
  · rcases fs with _ | ⟨f0, frest⟩
    · exact absurd rfl hne
    · simp only [List.headI_cons]
      simp only [List.headI_cons] at hrval
      simp only [result_value, hropt, Option.some_bind, hfs]
      rw [if_pos hrval]
      rw [hrval]
  · intro e he
    exact (hrval.symm).trans_le (hrle e he)

/-- Claim C10: in every reachable finished state, the minimum cost over the
full result mapping equals the head of the (sorted) function-value vector,
so the assertion inside `result_value` passes and `result_value` returns
that minimum. -/
theorem finished_result_assertion_safe (w : World) (h : Reach w)
    (hfin : w.engine.finished = true) :
    ∃ c, w.engine.fun_simplex.map List.headI = some c ∧
      result_value w.engine w.mapping = some c ∧
      (∀ e ∈ w.mapping, c ≤ e.2.2) := by
  obtain ⟨⟨hA, hLow, hX, hPend, hLen, hN⟩, hP⟩ := reach_winv w h
  unfold PhaseInv at hP
  cases hns : w.engine.next_submit with
  | some p =>
    rw [hns] at hP
    cases hnu : w.engine.next_update with
    | none =>
      rw [hnu] at hP
      cases p <;> simp [PhasePred, hfin] at hP
    | some q =>
      rw [hnu] at hP
      cases p <;> cases q <;> simp [PhasePred] at hP
  | none =>
    rw [hns] at hP
    cases hnu : w.engine.next_update with
    | some q =>
      rw [hnu] at hP
      cases q <;> simp only [PhasePred] at hP <;>
        first
          | (obtain ⟨⟨fs, hfs, hsort⟩, hEx, _, hpendE⟩ := hP
             exact terminal_result_value w hA hLow hLen hN fs hfs hsort hEx
               hpendE)
          | (exfalso; rw [hfin] at hP; simp at hP)
    | none =>
      rw [hnu] at hP
      simp only [PhasePred] at hP
      obtain ⟨⟨fs, hfs, hsort⟩, hEx, _, hpendE⟩ := hP
      exact terminal_result_value w hA hLow hLen hN fs hfs hsort hEx hpendE

/-- Witness for C10 at the concrete reachable finished world `W4`. -/
theorem finished_result_assertion_safe_witness :
    W4.engine.finished = true ∧
      ∃ c, W4.engine.fun_simplex.map List.headI = some c ∧
        result_value W4.engine W4.mapping = some c ∧
        (∀ e ∈ W4.mapping, c ≤ e.2.2) :=
  ⟨rfl, finished_result_assertion_safe W4 reach_W4 rfl⟩
